import Mathlib

/-!
Verification of the termnet core triad (WorkPlanner, EditEngine, Autopilot)
against its natural-language specification.  The Python sources
`src/termnet/planner.py`, `src/termnet/edit_engine.py` and
`src/termnet/autopilot.py` are shallowly embedded below: pure functions
become Lean functions, the file system becomes an explicit association list
from path strings to file contents, and Python exceptions become `Except`.
-/

/-! ## Generic string / list helpers (models of Python primitives) -/

/-- Model of `a.startswith(b)` at the character-list level. -/
def chPre : List Char → List Char → Bool
  | [], _ => true
  | _, [] => false
  | a :: as, b :: bs => a = b && chPre as bs

/-- Model of Python `needle in hay` (substring containment). -/
def containsSub (needle : List Char) : List Char → Bool
  | [] => chPre needle []
  | c :: cs => chPre needle (c :: cs) || containsSub needle cs

/-- String-level wrapper for `startswith`. -/
def strHasPre (pre s : String) : Bool := chPre pre.data s.data

/-- String-level wrapper for Python substring containment. -/
def strContains (needle hay : String) : Bool := containsSub needle.data hay.data

/-- Model of Python `str.lower()` (ASCII folding suffices for the goals used). -/
def pyLower (s : String) : String := ⟨s.data.map Char.toLower⟩

/-- Whitespace test used by Python `str.strip()`. -/
def pyIsSpace (c : Char) : Bool :=
  c = ' ' || c = '\t' || c = '\n' || c = '\r' || c = '\x0b' || c = '\x0c'

/-- Model of Python `str.strip()` on character lists. -/
def pyStripCh (l : List Char) : List Char :=
  ((l.dropWhile pyIsSpace).reverse.dropWhile pyIsSpace).reverse

/-- Model of Python `str.strip()`. -/
def pyStrip (s : String) : String := ⟨pyStripCh s.data⟩

/-- Helper for `pySplitNl`: split a character list at newline characters,
carrying the accumulated current chunk. -/
def splitNlCh : List Char → List Char → List String
  | [], acc => [⟨acc⟩]
  | c :: cs, acc =>
    if c = '\n' then ⟨acc⟩ :: splitNlCh cs [] else splitNlCh cs (acc ++ [c])

/-- Model of Python `s.split("\n")`. -/
def pySplitNl (s : String) : List String := splitNlCh s.data []

/-- Join a list of lines with newline separators (`"\n".join`, used to build
concrete diffs). -/
def nlJoin : List String → String
  | [] => ""
  | [x] => x
  | x :: xs => x ++ "\n" ++ nlJoin xs

/-- Helper for `pyReadlines`: split after each newline, keeping the newline
terminator on every chunk, and dropping an empty final chunk (Python
`readlines` semantics). -/
def readlinesCh : List Char → List Char → List String
  | [], acc => if acc = [] then [] else [⟨acc⟩]
  | c :: cs, acc =>
    if c = '\n' then ⟨acc ++ [c]⟩ :: readlinesCh cs [] else readlinesCh cs (acc ++ [c])

/-- Model of Python `f.readlines()` applied to a file's full content. -/
def pyReadlines (s : String) : List String := readlinesCh s.data []

/-- Model of Python `f.writelines(lines)`: concatenation. -/
def pyWritelines (l : List String) : String := String.join l

/-- Model of Python `line.rstrip("\n")`: drop all trailing newline chars. -/
def rstripNl (s : String) : String := ⟨(s.data.reverse.dropWhile (· = '\n')).reverse⟩

/-- Stable ascending insertion of a string into a sorted list
(used to model Python `sorted` on strings). -/
def insertStr (x : String) : List String → List String
  | [] => [x]
  | y :: ys => if y ≤ x then y :: insertStr x ys else x :: y :: ys

/-- Model of Python `sorted` on a list of strings (stable, ascending). -/
def sortStrs (l : List String) : List String := l.foldl (fun acc x => insertStr x acc) []

/-- Model of Python list slicing `l[a:b]` with possibly-negative indices. -/
def pySlice (l : List String) (a b : Int) : List String :=
  let n : Int := l.length
  let a' : Int := if a < 0 then max 0 (n + a) else min a n
  let b' : Int := if b < 0 then max 0 (n + b) else min b n
  (l.take b'.toNat).drop a'.toNat

/-- Model of Python `l.insert(i, x)` with possibly-negative index (clamped). -/
def pyInsertAt (l : List String) (i : Int) (x : String) : List String :=
  let n : Int := l.length
  let j : Int := if i < 0 then max 0 (n + i) else min i n
  l.take j.toNat ++ x :: l.drop j.toNat

/-- Model of Python `del l[i]`: negative indices address from the end and an
out-of-range negative index raises `IndexError`.  (The engine only calls this
under the guard `i < len l`.) -/
def pyDelAt (l : List String) (i : Int) : Except String (List String) :=
  if i ≥ 0 then
    .ok (l.take i.toNat ++ l.drop (i.toNat + 1))
  else
    let j : Int := (l.length : Int) + i
    if j ≥ 0 then .ok (l.take j.toNat ++ l.drop (j.toNat + 1))
    else .error "IndexError: list assignment index out of range"

/-- Occurrence count of a string in a list (used by the Kahn proof). -/
def cnt (b : String) (l : List String) : Nat := (l.filter (fun x => x = b)).length

/-! ## File-system model

A file system is an association list from path strings to file contents.
Paths are taken as already normalized: `os.path.join(".", p)` denotes the
same file as `p`, which `fullPath` reflects. -/

/-- File system: map from path to content. -/
abbrev FS : Type := List (String × String)

/-- Lookup a file's content. -/
def fsGet (fs : FS) (p : String) : Option String :=
  match fs with
  | [] => none
  | (q, c) :: rest => if q = p then some c else fsGet rest p

/-- Model of `os.path.exists`. -/
def fsExists (fs : FS) (p : String) : Bool := (fsGet fs p).isSome

/-- Write (create or overwrite) a file. -/
def fsSet (fs : FS) (p : String) (c : String) : FS :=
  match fs with
  | [] => [(p, c)]
  | (q, c') :: rest => if q = p then (q, c) :: rest else (q, c') :: fsSet rest p c

/-- Model of `os.path.join(repo_path, p)` under path normalization:
joining with "." yields the same file as `p` itself. -/
def fullPath (repoPath p : String) : String :=
  if repoPath = "." then p else repoPath ++ "/" ++ p

/-! ## fnmatch model

`fnmatch.fnmatch` on POSIX translates `*` to `.*` (matching any characters,
including `/`) and `?` to a single character; the configured patterns use no
character classes. -/

/-- Fuelled glob matcher for fnmatch-style patterns restricted to `*` and
`?` (every step shrinks pattern length + string length, so the fuel supplied
by `globMatch` below never runs out; the fuel only makes the recursion
structural). -/
def globMatchF : Nat → List Char → List Char → Bool
  | 0, _, _ => false
  | _ + 1, [], [] => true
  | _ + 1, [], _ :: _ => false
  | f + 1, '*' :: ps, [] => globMatchF f ps []
  | f + 1, '*' :: ps, c :: cs => globMatchF f ps (c :: cs) || globMatchF f ('*' :: ps) cs
  | _ + 1, '?' :: _, [] => false
  | f + 1, '?' :: ps, _ :: cs => globMatchF f ps cs
  | _ + 1, _ :: _, [] => false
  | f + 1, p :: ps, c :: cs => p = c && globMatchF f ps cs

/-- Glob matcher for fnmatch-style patterns restricted to `*` and `?`. -/
def globMatch (ps cs : List Char) : Bool :=
  globMatchF (ps.length + cs.length + 1) ps cs

/-- Model of `fnmatch.fnmatch(path, pattern)`. -/
def fnmatchStr (path pattern : String) : Bool := globMatch pattern.data path.data

/-- Model of `EditEngine._matches_patterns`. -/
def matchesPatterns (filePath : String) (patterns : List String) : Bool :=
  patterns.any (fun pat => fnmatchStr filePath pat)

/-! ## EditEngine: data model

Embedding of `src/termnet/edit_engine.py`. -/

/-- Hunk record from `_parse_unified_diff`. -/
structure Hunk where
  old_start : Nat
  old_count : Nat
  new_start : Nat
  new_count : Nat
  lines : List String
deriving DecidableEq, Repr

/-- Parsed patches: file path to hunk list, in first-seen insertion order
(models the Python dict). -/
abbrev Patches : Type := List (String × List Hunk)

/-- Result record of `apply_patch` (dataclass `EditResult`; the `conflicts`
default of `None` is normalized to `[]` by `__post_init__`). -/
structure EditResult where
  status : String
  files_touched : List String
  idempotent : Bool
  message : String
  conflicts : List String := []
  diff_applied : String := ""
deriving DecidableEq, Repr

/-- Guardrail violation record (dataclass `GuardrailViolation`). -/
structure GuardrailViolation where
  rule : String
  file_path : String
  reason : String
  severity : String := "error"
deriving DecidableEq, Repr

/-- The `write_guardrails` configuration section. -/
structure GuardrailsCfg where
  allowed_paths : List String
  blocked_paths : List String
  max_total_patch_bytes : Nat
  max_files_per_patch : Nat
deriving DecidableEq, Repr

/-- Engine configuration after `_setup_defaults` merged the defaults in:
the fields the engine actually reads. -/
structure EngineCfg where
  guardrails : GuardrailsCfg
  repoPath : String
  splitHunks : Bool
  backupOnConflict : Bool
deriving DecidableEq, Repr

/-- The default configuration installed by `_setup_defaults` (with the
default `repo_path` of `"."` read via `config.get`). -/
def defaultEngineCfg : EngineCfg :=
  { guardrails :=
      { allowed_paths := ["termnet/**", "tests/**", "docs/**", "scripts/**"]
        blocked_paths := [".git/**", "__pycache__/**", "*.pyc", "node_modules/**"]
        max_total_patch_bytes := 50000
        max_files_per_patch := 20 }
    repoPath := "."
    splitHunks := true
    backupOnConflict := true }

/-! ## EditEngine: diff parsing (`_parse_unified_diff`) -/

/-- Set a key in an insertion-ordered map, keeping its original position if
present (Python dict assignment). -/
def assocSet (m : Patches) (k : String) (v : List Hunk) : Patches :=
  match m with
  | [] => [(k, v)]
  | (k', v') :: rest => if k' = k then (k', v) :: rest else (k', v') :: assocSet rest k v

/-- Append a hunk to a file's hunk list (`patches[current_file].append(...)`). -/
def assocAppendHunk (m : Patches) (k : String) (h : Hunk) : Patches :=
  match m with
  | [] => []
  | (k', v') :: rest =>
    if k' = k then (k', v' ++ [h]) :: rest else (k', v') :: assocAppendHunk rest k h

/-- Modify the last hunk of a list (the Python `current_hunk` alias always
denotes the most recently created hunk, i.e. the last hunk of the file it was
created under). -/
def updateLastHunk (hs : List Hunk) (f : Hunk → Hunk) : List Hunk :=
  match hs with
  | [] => []
  | [h] => [f h]
  | h :: rest => h :: updateLastHunk rest f

/-- Append a content line to the current hunk of file `k`. -/
def assocAppendLine (m : Patches) (k : String) (l : String) : Patches :=
  match m with
  | [] => []
  | (k', v') :: rest =>
    if k' = k then (k', updateLastHunk v' (fun h => { h with lines := h.lines ++ [l] })) :: rest
    else (k', v') :: assocAppendLine rest k l

/-- Parser state: the patches built so far, the current file, and the file
owning the current hunk (`current_hunk is not None` iff `hunkFile.isSome`). -/
structure PState where
  patches : Patches
  currentFile : Option String
  hunkFile : Option String
deriving Repr

/-- Read a run of decimal digits (at least one) off a character list. -/
def readDigits : List Char → Option (Nat × List Char)
  | [] => none
  | c :: cs =>
    if c.isDigit then
      let rec go (acc : Nat) : List Char → (Nat × List Char)
        | [] => (acc, [])
        | d :: ds => if d.isDigit then go (acc * 10 + (d.toNat - 48)) ds else (acc, d :: ds)
      some (go (c.toNat - 48) cs)
    else none

/-- Read an optional `,count` (regex `(?:,(\d+))?`, defaulting to 1). -/
def readOptCount : List Char → Option (Nat × List Char)
  | ',' :: cs =>
    match readDigits cs with
    | some (n, rest) => some (n, rest)
    | none => none
  | cs => some (1, cs)

/-- Model of `re.match(r"@@ -(\d+)(?:,(\d+))? \+(\d+)(?:,(\d+))? @@", line)`:
an anchored (not full) match, so trailing characters after the closing `@@`
are allowed. -/
def parseHunkHeader (l : List Char) : Option (Nat × Nat × Nat × Nat) :=
  match l with
  | '@' :: '@' :: ' ' :: '-' :: cs =>
    match readDigits cs with
    | none => none
    | some (oldStart, cs1) =>
      match readOptCount cs1 with
      | none => none
      | some (oldCount, cs2) =>
        match cs2 with
        | ' ' :: '+' :: cs3 =>
          match readDigits cs3 with
          | none => none
          | some (newStart, cs4) =>
            match readOptCount cs4 with
            | none => none
            | some (newCount, cs5) =>
              match cs5 with
              | ' ' :: '@' :: '@' :: _ => some (oldStart, oldCount, newStart, newCount)
              | _ => none
        | _ => none
  | _ => none

/-- One iteration of the parsing loop of `_parse_unified_diff`. -/
def stepLine (st : PState) (line : String) : Except String PState :=
  if strHasPre "--- " line then
    -- only sets the unused local `old_file`
    .ok st
  else if strHasPre "+++ " line then
    let nf := pyStrip ⟨line.data.drop 4⟩
    if nf = "/dev/null" then .ok st
    else .ok { st with currentFile := some nf, patches := assocSet st.patches nf [] }
  else if strHasPre "@@" line then
    match st.currentFile with
    | none => .error "Hunk without file context"
    | some f =>
      match parseHunkHeader line.data with
      | none => .error ("Invalid hunk header: " ++ line)
      | some (a, b, c, d) =>
        .ok { patches := assocAppendHunk st.patches f ⟨a, b, c, d, []⟩
              currentFile := some f
              hunkFile := some f }
  else if st.hunkFile.isSome &&
      (strHasPre " " line || strHasPre "-" line || strHasPre "+" line || line == "") then
    match st.hunkFile with
    | none => .ok st
    | some f => .ok { st with patches := assocAppendLine st.patches f (if line == "" then " " else line) }
  else
    .ok st

/-- Fold of `stepLine` over the diff's lines. -/
def parseLines : List String → PState → Except String Patches
  | [], st => .ok st.patches
  | l :: ls, st =>
    match stepLine st l with
    | .error e => .error e
    | .ok st' => parseLines ls st'

/-- Model of `EditEngine._parse_unified_diff`. -/
def parseUnifiedDiff (diff : String) : Except String Patches :=
  parseLines (pySplitNl diff) ⟨[], none, none⟩

/-! ## EditEngine: guardrails (`_check_guardrails`) -/

/-- Total size summed over every hunk line (context lines included), as the
code computes it. -/
def totalPatchBytes (ps : Patches) : Nat :=
  (ps.map (fun fp => (fp.2.map (fun h => (h.lines.map String.length).sum)).sum)).sum

/-- Python `repr` of a list of strings, as produced by the f-string
`f"Guardrail violations: {[v.reason for v in violations]}"`. -/
def pyListRepr (l : List String) : String :=
  "[" ++ String.intercalate ", " (l.map (fun s => "'" ++ s ++ "'")) ++ "]"

/-- Model of `EditEngine._check_guardrails`: file-count limit, total size
limit, then per-file blocked-path and allowed-path checks, in source order. -/
def checkGuardrails (g : GuardrailsCfg) (ps : Patches) : List GuardrailViolation :=
  (if ps.length > g.max_files_per_patch then
    [⟨"max_files_per_patch", "",
      "Patch affects " ++ toString ps.length ++ " files, limit is " ++
        toString g.max_files_per_patch, "error"⟩]
  else []) ++
  (if totalPatchBytes ps > g.max_total_patch_bytes then
    [⟨"max_total_patch_bytes", "",
      "Patch size " ++ toString (totalPatchBytes ps) ++ " bytes exceeds limit " ++
        toString g.max_total_patch_bytes, "error"⟩]
  else []) ++
  ps.flatMap (fun fp =>
    (if matchesPatterns fp.1 g.blocked_paths then
      [⟨"blocked_paths", fp.1, "File " ++ fp.1 ++ " matches blocked path pattern", "error"⟩]
    else []) ++
    (if !matchesPatterns fp.1 g.allowed_paths then
      [⟨"allowed_paths", fp.1, "File " ++ fp.1 ++ " not in allowed paths", "error"⟩]
    else []))

/-! ## EditEngine: idempotency (`_check_idempotency`, `_hunk_already_applied`) -/

/-- Model of `EditEngine._hunk_already_applied`. -/
def hunkAlreadyApplied (content : List String) (h : Hunk) : Bool :=
  let expected := (h.lines.filter (fun l => strHasPre " " l || strHasPre "+" l)).map
    (fun l => (⟨l.data.drop 1⟩ : String))
  if expected = [] then true
  else
    let startLine : Int := (h.new_start : Int) - 1
    let endLine : Int := startLine + expected.length
    if endLine > (content.length : Int) then false
    else
      (pySlice content startLine endLine).map rstripNl = expected.map rstripNl

/-- Model of `EditEngine._check_idempotency`. -/
def checkIdempotency (cfg : EngineCfg) (fs : FS) (ps : Patches) : Bool :=
  ps.all (fun fp =>
    match fsGet fs (fullPath cfg.repoPath fp.1) with
    | none => false
    | some content => fp.2.all (fun h => hunkAlreadyApplied (pyReadlines content) h))

/-! ## EditEngine: hunk application -/

/-- Model of `EditEngine._apply_single_hunk`: walk the hunk lines with a
cursor starting at `old_start - 1`; a context line only advances the cursor
(the code does not verify that it matches), a removal deletes at the cursor
without advancing, an addition inserts at the cursor and advances. -/
def applySingleHunk (content : List String) (h : Hunk) : Except String (List String) :=
  let step : (List String × Int) → String → Except String (List String × Int) :=
    fun st l =>
      let (cur, pos) := st
      if strHasPre " " l then .ok (cur, pos + 1)
      else if strHasPre "-" l then
        if pos < (cur.length : Int) then
          match pyDelAt cur pos with
          | .ok cur' => .ok (cur', pos)
          | .error e => .error e
        else .ok (cur, pos)
      else if strHasPre "+" l then
        let newLine := (⟨l.data.drop 1⟩ : String)
        let newLine := if newLine.data.reverse.head? = some '\n' then newLine
          else newLine ++ "\n"
        .ok (pyInsertAt cur pos newLine, pos + 1)
      else .ok (cur, pos)
  match h.lines.foldlM step (content, (h.old_start : Int) - 1) with
  | .ok (cur, _) => .ok cur
  | .error e => .error e

/-- Stable insertion of a hunk into a list sorted descending by `old_start`
(equal keys keep original relative order), modelling
`sorted(hunks, key=lambda h: h["old_start"], reverse=True)`. -/
def insertHunkDesc (x : Hunk) : List Hunk → List Hunk
  | [] => [x]
  | y :: ys => if y.old_start ≥ x.old_start then y :: insertHunkDesc x ys else x :: y :: ys

/-- Stable descending sort by `old_start`. -/
def sortHunksDesc (hs : List Hunk) : List Hunk :=
  hs.foldl (fun acc h => insertHunkDesc h acc) []

/-- Model of `EditEngine._apply_hunks_to_content`. -/
def applyHunksToContent (content : List String) (hs : List Hunk) :
    Except String (List String) :=
  (sortHunksDesc hs).foldlM applySingleHunk content

/-! ## EditEngine: backup and restore (`_create_backup`, `_restore_backup`)

The backup directory is modelled as a list of (encoded name, content) pairs
in the order the files were copied (`os.listdir` iteration order is not
specified; the theorems below do not depend on it). -/

/-- Backup file-name encoding: `file_path.replace("/", "_")`. -/
def encodePath (p : String) : String :=
  ⟨p.data.map (fun c => if c = '/' then '_' else c)⟩

/-- Restore-path decoding: `backup_file.replace("_", "/")` — note this
replaces every underscore, not only the ones introduced by `encodePath`. -/
def decodePath (p : String) : String :=
  ⟨p.data.map (fun c => if c = '_' then '/' else c)⟩

/-- Model of `EditEngine._create_backup`: copies each file that exists at its
raw (not repo-joined) path into the backup directory under the encoded name;
does nothing when `backup_on_conflict` is disabled. -/
def createBackup (backupOnConflict : Bool) (fs : FS) (filePaths : List String) :
    List (String × String) :=
  if !backupOnConflict then []
  else filePaths.filterMap (fun p => (fsGet fs p).map (fun c => (encodePath p, c)))

/-- Model of `EditEngine._restore_backup`: copies every backup file back to
its decoded path.  (Directory creation is not modelled: the real code would
raise `FileNotFoundError` when the decoded path's directory does not exist,
which equally fails to restore the original path.) -/
def restoreBackup (backup : List (String × String)) (fs : FS) : FS :=
  backup.foldl (fun acc e => fsSet acc (decodePath e.1) e.2) fs

/-! ## EditEngine: conflict pre-check (`_check_conflicts`, `_can_apply_hunk`)

These are the routines that would verify context/removed lines and produce
conflicts keyed `"path:hunkN"`.  Note that `apply_patch` never calls them. -/

/-- Python `l[i]` with wrap-around for negative indices; `IndexError` when out
of range. -/
def pyGetAt (l : List String) (i : Int) : Except String String :=
  let j : Int := if i < 0 then (l.length : Int) + i else i
  if h : 0 ≤ j ∧ j < (l.length : Int) then
    .ok (l.get ⟨j.toNat, by omega⟩)
  else .error "IndexError: list index out of range"

/-- Model of `EditEngine._can_apply_hunk`: check context and removed lines
against the file content at their expected offsets. -/
def canApplyHunk (content : List String) (h : Hunk) : Except String Bool :=
  let oldStart : Int := (h.old_start : Int) - 1
  let pairs := (h.lines.filter (fun l => strHasPre " " l || strHasPre "-" l)).enum.map
    (fun li => ((li.1 : Int), (⟨li.2.data.drop 1⟩ : String)))
  pairs.foldlM (fun (acc : Bool) oe =>
    if !acc then .ok false
    else
      let lineIndex := oldStart + oe.1
      if lineIndex ≥ (content.length : Int) then .ok false
      else
        match pyGetAt content lineIndex with
        | .error e => .error e
        | .ok actual => .ok (rstripNl actual = rstripNl oe.2)) true

/-- Model of `EditEngine._check_conflicts` (dead code with respect to
`apply_patch`): produces conflicts keyed `"path:hunkN"`. -/
def checkConflicts (cfg : EngineCfg) (fs : FS) (ps : Patches) : List String :=
  ps.foldl (fun conflicts fp =>
    match fsGet fs (fullPath cfg.repoPath fp.1) with
    | none => conflicts
    | some content =>
      let lines := pyReadlines content
      conflicts ++ (fp.2.enum.filterMap (fun hi =>
        match canApplyHunk lines hi.2 with
        | .ok true => none
        | .ok false => some (fp.1 ++ ":hunk" ++ toString (hi.1 + 1))
        | .error e => some (fp.1 ++ ":read_error:" ++ e)))) []

/-! ## EditEngine: real application (`_apply_patches`, retry, top level) -/

/-- Model of `EditEngine._apply_patches`: apply each file's hunks and write
the result; exceptions are caught per file and recorded as
`"path:apply_error:..."` conflicts. -/
def applyPatches (cfg : EngineCfg) (fs : FS) (ps : Patches) : List String × FS :=
  ps.foldl (fun (acc : List String × FS) fp =>
    let full := fullPath cfg.repoPath fp.1
    let content := match fsGet acc.2 full with
      | some c => pyReadlines c
      | none => []
    match applyHunksToContent content fp.2 with
    | .ok newContent => (acc.1, fsSet acc.2 full (pyWritelines newContent))
    | .error e => (acc.1 ++ [fp.1 ++ ":apply_error:" ++ e], acc.2)) ([], fs)

/-- Split a string at every occurrence of the literal `":hunk"`
(Python `conflict.split(":hunk")`). -/
def splitHunkMark : List Char → List Char → List String
  | [], acc => [⟨acc⟩]
  | ':' :: 'h' :: 'u' :: 'n' :: 'k' :: rest, acc => ⟨acc⟩ :: splitHunkMark rest []
  | c :: cs, acc => splitHunkMark cs (acc ++ [c])

/-- Model of Python `int(s)`: optional sign and digits after stripping
whitespace; anything else raises `ValueError`. -/
def pyIntParse (s : String) : Except String Int :=
  let t := pyStripCh s.data
  let core : List Char × Bool :=
    match t with
    | '-' :: rest => (rest, true)
    | '+' :: rest => (rest, false)
    | other => (other, false)
  if core.1 ≠ [] && core.1.all Char.isDigit then
    let n : Nat := core.1.foldl (fun acc d => acc * 10 + (d.toNat - 48)) 0
    .ok (if core.2 then -(n : Int) else (n : Int))
  else .error ("ValueError: invalid literal for int() with base 10: " ++ s)

/-- Lookup in the patches map (`file_path in patches` / `patches[file_path]`). -/
def patGet (ps : Patches) (k : String) : Option (List Hunk) :=
  match ps with
  | [] => none
  | (k', v) :: rest => if k' = k then some v else patGet rest k

/-- Python `hunks[i]` with wrap-around for negative indices. -/
def pyHunkAt (l : List Hunk) (i : Int) : Except String Hunk :=
  let j : Int := if i < 0 then (l.length : Int) + i else i
  if h : 0 ≤ j ∧ j < (l.length : Int) then
    .ok (l.get ⟨j.toNat, by omega⟩)
  else .error "IndexError: list index out of range"

/-- Model of `EditEngine._try_split_hunk_application`: re-open the file at its
raw path (not repo-joined) and re-apply the single hunk; any exception makes
it return `False` without writing. -/
def trySplitHunkApplication (fs : FS) (filePath : String) (h : Hunk) : Bool × FS :=
  match fsGet fs filePath with
  | none => (false, fs)
  | some c =>
    match applySingleHunk (pyReadlines c) h with
    | .error _ => (false, fs)
    | .ok newContent => (true, fsSet fs filePath (pyWritelines newContent))

/-- Model of `EditEngine._retry_with_split_hunks`.  An uncaught `ValueError`
or `IndexError` (from `split`/`int`/negative indexing) is propagated with the
file system at the point of failure. -/
def retryWithSplitHunks (fs : FS) (ps : Patches) (conflicts : List String) :
    Except (String × FS) (List String × FS) :=
  conflicts.foldlM (fun (acc : List String × FS) c =>
    if strContains ":hunk" c then
      match splitHunkMark c.data [] with
      | [fp, href] =>
        match pyIntParse href with
        | .error e => .error (e, acc.2)
        | .ok n =>
          match patGet ps fp with
          | none => .ok acc
          | some hunks =>
            if (n - 1) < (hunks.length : Int) then
              match pyHunkAt hunks (n - 1) with
              | .error e => .error (e, acc.2)
              | .ok h =>
                let r := trySplitHunkApplication acc.2 fp h
                .ok (if r.1 then acc.1 ++ [c] else acc.1, r.2)
            else .ok acc
      | _ => .error ("ValueError: too many values to unpack", acc.2)
    else .ok acc) ([], fs)

/-- Model of `EditEngine._apply_patches_with_retry`. -/
def applyPatchesWithRetry (cfg : EngineCfg) (fs : FS) (ps : Patches)
    (originalDiff : String) : EditResult × FS :=
  let backup := createBackup cfg.backupOnConflict fs (ps.map (·.1))
  let r := applyPatches cfg fs ps
  if r.1 = [] then
    ({ status := "success", files_touched := ps.map (·.1), idempotent := false
       message := "Patch applied successfully", conflicts := []
       diff_applied := originalDiff }, r.2)
  else if cfg.splitHunks then
    match retryWithSplitHunks r.2 ps r.1 with
    | .error ef =>
      ({ status := "error", files_touched := ps.map (·.1), idempotent := false
         message := "Error applying patch: " ++ ef.1, conflicts := [] },
       restoreBackup backup ef.2)
    | .ok rr =>
      if r.1.filter (fun c => !(rr.1.contains c)) = [] then
        ({ status := "success", files_touched := ps.map (·.1), idempotent := false
           message := "Patch applied after conflict resolution", conflicts := []
           diff_applied := originalDiff }, rr.2)
      else
        ({ status := "conflict", files_touched := ps.map (·.1), idempotent := false
           message := "Failed to resolve conflicts after retries", conflicts := r.1 },
         restoreBackup backup rr.2)
  else
    ({ status := "conflict", files_touched := ps.map (·.1), idempotent := false
       message := "Failed to resolve conflicts after retries", conflicts := r.1 },
     restoreBackup backup r.2)

/-- Model of `EditEngine.apply_patch`.  Returns the `EditResult` together
with the file system after the call. -/
def applyPatch (cfg : EngineCfg) (fs : FS) (diff : String) (dryRun : Bool) :
    EditResult × FS :=
  match parseUnifiedDiff diff with
  | .error e =>
    ({ status := "error", files_touched := [], idempotent := false
       message := "Failed to parse diff: " ++ e }, fs)
  | .ok ps =>
    match checkGuardrails cfg.guardrails ps with
    | _ :: _ =>
      ({ status := "blocked", files_touched := [], idempotent := false
         message := "Guardrail violations: " ++
           pyListRepr ((checkGuardrails cfg.guardrails ps).map (·.reason)) }, fs)
    | [] =>
      if checkIdempotency cfg fs ps then
        ({ status := "success", files_touched := sortStrs (ps.map (·.1))
           idempotent := true
           message := "No changes needed; patch already applied (idempotent)"
           conflicts := [], diff_applied := diff }, fs)
      else if dryRun then
        let conflicts := ps.foldl (fun acc fp =>
          let content := match fsGet fs (fullPath cfg.repoPath fp.1) with
            | some c => pyReadlines c
            | none => []
          match applyHunksToContent content fp.2 with
          | .ok _ => acc
          | .error e => acc ++ [fp.1 ++ ": " ++ e]) []
        if conflicts ≠ [] then
          ({ status := "conflict", files_touched := ps.map (·.1), idempotent := false
             message := "Conflicts detected in dry run", conflicts := conflicts }, fs)
        else
          ({ status := "success", files_touched := ps.map (·.1), idempotent := false
             message := "Dry run: patch would apply cleanly"
             diff_applied := diff }, fs)
      else
        applyPatchesWithRetry cfg fs ps diff

/-! ## EditEngine: patch preview (`get_patch_preview`) -/

/-- Result record of `get_patch_preview` (a plain dict in the source). -/
structure PreviewResult where
  status : String
  errorMsg : Option String := none
  files_affected : List String
  total_additions : Nat
  total_deletions : Nat
  violations : List GuardrailViolation
  idempotent : Bool
  patch_size_bytes : Nat
  previews : List (String × String) := []
deriving DecidableEq, Repr

/-- Count of `+`-prefixed hunk content lines over all parsed patches. -/
def totalAdditionsOf (ps : Patches) : Nat :=
  (ps.map (fun fp => (fp.2.map (fun h => h.lines.countP (fun l => strHasPre "+" l))).sum)).sum

/-- Count of `-`-prefixed hunk content lines over all parsed patches
(a line starting with `+` is counted as an addition only). -/
def totalDeletionsOf (ps : Patches) : Nat :=
  (ps.map (fun fp => (fp.2.map (fun h =>
    h.lines.countP (fun l => !strHasPre "+" l && strHasPre "-" l))).sum)).sum

/-- Model of `EditEngine.get_patch_preview`: read-only; produces counts,
violations and in-memory previews, and never writes to the file system
(reflected by the type: no file system is returned). -/
def getPatchPreview (cfg : EngineCfg) (fs : FS) (diff : String) : PreviewResult :=
  match parseUnifiedDiff diff with
  | .error e =>
    { status := "error", errorMsg := some e, files_affected := []
      total_additions := 0, total_deletions := 0, violations := []
      idempotent := false, patch_size_bytes := diff.length }
  | .ok ps =>
    let violations := checkGuardrails cfg.guardrails ps
    let previews := ps.map (fun fp =>
      let content := match fsGet fs (fullPath cfg.repoPath fp.1) with
        | some c => pyReadlines c
        | none => []
      match applyHunksToContent content fp.2 with
      | .ok preview => (fp.1, pyWritelines preview)
      | .error _ => (fp.1, "Preview unavailable for " ++ fp.1))
    { status := if violations ≠ [] then "blocked" else "success"
      files_affected := ps.map (·.1)
      total_additions := totalAdditionsOf ps
      total_deletions := totalDeletionsOf ps
      violations := violations
      idempotent := checkIdempotency cfg fs ps
      patch_size_bytes := diff.length
      previews := previews }

/-! ## WorkPlanner: data model

Embedding of `src/termnet/planner.py`.  `repo_intel["files"]` and
`repo_intel["symbols"]` are dynamically typed Python lists; their elements
are modelled by `PyVal` (strings and ints suffice to exhibit the dynamic
behaviour of `sorted`). -/

/-- Decidable equality for `Except` results (used to evaluate claims on
concrete inputs). -/
instance {e a : Type} [DecidableEq e] [DecidableEq a] : DecidableEq (Except e a) := fun x y =>
  match x, y with
  | .error u, .error v =>
    if h : u = v then isTrue (by rw [h]) else isFalse (by simp [h])
  | .ok u, .ok v =>
    if h : u = v then isTrue (by rw [h]) else isFalse (by simp [h])
  | .error _, .ok _ => isFalse (by simp)
  | .ok _, .error _ => isFalse (by simp)

/-- A dynamically typed Python value appearing in `repo_intel` lists. -/
inductive PyVal where
  | pyS : String → PyVal
  | pyI : Int → PyVal
deriving DecidableEq, Repr

/-- String test. -/
def PyVal.isStr : PyVal → Bool
  | .pyS _ => true
  | .pyI _ => false

/-- Int test. -/
def PyVal.isInt : PyVal → Bool
  | .pyS _ => false
  | .pyI _ => true

/-- Ordering key used by `sorted` within a homogeneous list. -/
def PyVal.strVal : PyVal → String
  | .pyS s => s
  | .pyI _ => ""

/-- Ordering key used by `sorted` within a homogeneous int list. -/
def PyVal.intVal : PyVal → Int
  | .pyS _ => 0
  | .pyI n => n

/-- Stable ascending insertion by a key. -/
def insertPyBy (key : PyVal → PyVal → Bool) (x : PyVal) : List PyVal → List PyVal
  | [] => [x]
  | y :: ys => if key y x then y :: insertPyBy key x ys else x :: y :: ys

/-- Model of Python `sorted` on a `repo_intel` list: a homogeneous list is
sorted ascending; comparing a `str` and an `int` raises `TypeError`, which is
what happens on any mixed list of length at least two. -/
def pySorted (l : List PyVal) : Except String (List PyVal) :=
  if l.all PyVal.isStr then
    .ok (l.foldl (fun acc x => insertPyBy (fun a b => a.strVal ≤ b.strVal) x acc) [])
  else if l.all PyVal.isInt then
    .ok (l.foldl (fun acc x => insertPyBy (fun a b => a.intVal ≤ b.intVal) x acc) [])
  else
    .error "TypeError: '<' not supported between instances of 'str' and 'int'"

/-! ## WorkPlanner: deterministic input hash (`_hash_inputs`)

`json.dumps(..., sort_keys=True)` is modelled by an explicit canonical
encoding (keys in alphabetical order: goal, repo_files, repo_symbols, seed).
`hashlib.sha256(...).hexdigest()[:12]` is modelled by a fixed pure function
from strings to 12 hex characters; every claim proved here depends only on
the digest being a deterministic function of the canonical encoding, never
on the digest algorithm itself. -/

/-- Minimal JSON string encoding (escapes backslash and quote; the control
characters never occur in the values the claims evaluate). -/
def jsonStr (s : String) : String :=
  "\x22" ++ ⟨s.data.flatMap (fun c =>
    if c = '\x22' then ['\\', '\x22'] else if c = '\\' then ['\\', '\\'] else [c])⟩ ++ "\x22"

/-- JSON encoding of a `repo_intel` list element. -/
def jsonPyVal : PyVal → String
  | .pyS s => jsonStr s
  | .pyI n => toString n

/-- JSON array encoding. -/
def jsonArr (l : List PyVal) : String :=
  "[" ++ String.intercalate ", " (l.map jsonPyVal) ++ "]"

/-- Canonical encoding of the stable input dict of `_hash_inputs`
(`json.dumps` with `sort_keys=True` and default separators). -/
def stableInputJson (goal : String) (seed : Int) (sortedFiles sortedSymbols : List PyVal) :
    String :=
  "\x7b" ++ jsonStr "goal" ++ ": " ++ jsonStr goal ++ ", " ++
    jsonStr "repo_files" ++ ": " ++ jsonArr sortedFiles ++ ", " ++
    jsonStr "repo_symbols" ++ ": " ++ jsonArr sortedSymbols ++ ", " ++
    jsonStr "seed" ++ ": " ++ toString seed ++ "\x7d"

/-- A 64-bit FNV-1a style accumulator over the string's characters, reduced
mod 2^64 — the fixed pure stand-in for the sha256 digest. -/
def digest64 (s : String) : Nat :=
  s.data.foldl (fun h c => ((h ^^^ c.toNat) * 1099511628211) % (2 ^ 64)) 14695981039346656037

/-- Hex digit. -/
def hexDigit (n : Nat) : Char :=
  if n < 10 then Char.ofNat (48 + n) else Char.ofNat (87 + n)

/-- Render the low 48 bits as 12 hex characters (the `[:12]` truncation). -/
def toHex12 (n : Nat) : String :=
  ⟨(List.range 12).map (fun i => hexDigit ((n / 16 ^ (11 - i)) % 16))⟩

/-- Model of `WorkPlanner._hash_inputs` (files and symbols already sorted by
the caller; the digest itself is the fixed stand-in described above). -/
def hashInputs (goal : String) (seed : Int) (sortedFiles sortedSymbols : List PyVal) :
    String :=
  toHex12 (digest64 (stableInputJson goal seed sortedFiles sortedSymbols))

/-! ## WorkPlanner: goal decomposition (`_decompose_goal`) -/

/-- Task node (dataclass `TaskNode`; `estimated_files` keeps the dynamically
typed `repo_intel` values Python would store there). -/
structure TaskNode where
  id : String
  description : String
  dependencies : List String
  risk : String
  done_criteria : List String
  estimated_files : List PyVal
deriving DecidableEq, Repr

/-- Python `any(word in goal_lower for word in words)`. -/
def anyWordIn (words : List String) (goalLower : String) : Bool :=
  words.any (fun w => strContains w goalLower)

/-- Model of `WorkPlanner._decompose_goal` (the `plan_hash` argument is
unused by the source body). -/
def decomposeGoal (maxTasks : Nat) (goal : String) (files : List PyVal) : List TaskNode :=
  let goalLower := pyLower goal
  let analyze : TaskNode :=
    { id := "analyze_requirements"
      description := "Analyze requirements and existing codebase"
      dependencies := []
      risk := "low"
      done_criteria := ["Requirements clearly understood", "Existing code analyzed",
        "Change scope identified"]
      estimated_files := [.pyS "docs/analysis.md"] }
  let implementTests : TaskNode :=
    { id := "implement_tests"
      description := "Implement or update test cases"
      dependencies := ["analyze_requirements"]
      risk := "low"
      done_criteria := ["Test cases written", "Tests initially failing (red)",
        "Test coverage adequate"]
      estimated_files := [.pyS "tests/"] }
  let fixImplementation : TaskNode :=
    { id := "fix_implementation"
      description := "Fix identified issues in implementation"
      dependencies := ["analyze_requirements"]
      risk := "medium"
      done_criteria := ["Root cause identified", "Fix implemented",
        "No regressions introduced"]
      estimated_files := files.take 3 }
  let implementFeature : TaskNode :=
    { id := "implement_feature"
      description := "Implement new functionality"
      dependencies := ["analyze_requirements"]
      risk := "high"
      done_criteria := ["Core functionality implemented", "API contracts maintained",
        "Integration points working"]
      estimated_files := [.pyS "termnet/", .pyS "tests/"] }
  let tasks := [analyze]
  let tasks := if anyWordIn ["test", "testing", "spec"] goalLower then
      tasks ++ [implementTests] else tasks
  let tasks := if anyWordIn ["fix", "bug", "error", "issue"] goalLower then
      tasks ++ [fixImplementation] else tasks
  let tasks := if anyWordIn ["add", "implement", "create", "new"] goalLower then
      tasks ++ [implementFeature] else tasks
  let validate : TaskNode :=
    { id := "validate_changes"
      description := "Validate all changes work together"
      dependencies := (tasks.drop 1).map (·.id)
      risk := "medium"
      done_criteria := ["All tests passing", "No breaking changes",
        "Documentation updated", "Ready for review"]
      estimated_files := [.pyS "docs/", .pyS "tests/"] }
  let tasks := tasks ++ [validate]
  tasks.take maxTasks

/-! ## WorkPlanner: graph construction and `plan` -/

/-- Task graph (`_build_task_graph` output plus the metadata `plan` adds).
Nodes are an insertion-ordered map id → node; edges are (from, to) pairs. -/
structure TaskGraph where
  nodes : List (String × TaskNode)
  edges : List (String × String)
  goal : String
  plan_hash : String
  created_at : String
  estimated_complexity : String
  total_tasks : Nat
deriving DecidableEq, Repr

/-- Model of `WorkPlanner._build_task_graph`. -/
def buildTaskGraphNodes (tasks : List TaskNode) : List (String × TaskNode) :=
  tasks.map (fun t => (t.id, t))

/-- Edges from dependencies, in task order then dependency order. -/
def buildTaskGraphEdges (tasks : List TaskNode) : List (String × String) :=
  tasks.flatMap (fun t => t.dependencies.map (fun d => (d, t.id)))

/-- Model of `WorkPlanner._estimate_complexity`. -/
def estimateComplexity (tasks : List TaskNode) : String :=
  let score : String → Nat := fun r => if r = "low" then 1 else if r = "medium" then 3
    else if r = "high" then 5 else 1
  let total := (tasks.map (fun t => score t.risk)).sum
  if total ≤ 5 then "low" else if total ≤ 15 then "medium" else "high"

/-- Model of `WorkPlanner.plan`.  The wall-clock reading
`datetime.utcnow().isoformat()` is passed in explicitly as `now`; a Python
call at time `now` returns exactly `plan goal intel` with that timestamp.
`sorted` on the dynamically typed lists can raise, which the `Except`
propagates (the source has no handler). -/
def plan (maxTasks : Nat) (seed : Int) (goal : String) (files symbols : List PyVal)
    (now : String) : Except String TaskGraph :=
  match pySorted files, pySorted symbols with
  | .error e, _ => .error e
  | _, .error e => .error e
  | .ok sortedFiles, .ok sortedSymbols =>
    let planHash := hashInputs goal seed sortedFiles sortedSymbols
    let tasks := decomposeGoal maxTasks goal files
    .ok { nodes := buildTaskGraphNodes tasks
          edges := buildTaskGraphEdges tasks
          goal := goal
          plan_hash := planHash
          created_at := now
          estimated_complexity := estimateComplexity tasks
          total_tasks := tasks.length }

/-! ## WorkPlanner: topological sort (`_topological_sort`)

Kahn's algorithm exactly as in the source: in-degrees per node, a FIFO queue
seeded with the zero-in-degree nodes in first-seen insertion order of the
node map (Python dicts preserve insertion order), pop from the front, emit,
decrement neighbor in-degrees (ints, so they can go negative), enqueue nodes
whose in-degree becomes exactly zero, in the order their edges appear.
The node map is modelled by its key list in insertion order; the in-degree
dict by a function on strings. -/

/-- Update one key of an in-degree map. -/
def updf (d : String → Int) (k : String) (v : Int) : String → Int :=
  fun x => if x = k then v else d x

/-- Adjacency of the source's `graph` dict: targets of edges out of `a`, in
edge-list order. -/
def nbrs (edges : List (String × String)) (a : String) : List String :=
  (edges.filter (fun e => e.1 = a)).map (·.2)

/-- In-degree map built by incrementing per edge
(`in_degree[edge["to"]] += 1` over an all-zeros initialization). -/
def initDeg (edges : List (String × String)) : String → Int :=
  edges.foldl (fun d e => updf d e.2 (d e.2 + 1)) (fun _ => 0)

/-- The inner `for neighbor in graph[current]` loop: decrement each
neighbor's in-degree and append the ones that become exactly zero to the
queue. -/
def procN : List String → (String → Int) → List String → ((String → Int) × List String)
  | [], d, q => (d, q)
  | b :: bs, d, q =>
    let d' := updf d b (d b - 1)
    procN bs d' (if d' b = 0 then q ++ [b] else q)

/-- The `while queue` loop, fuelled.  `topologicalSort` supplies fuel
`nodes.length + edges.length`, an upper bound on the number of iterations the
Python loop can ever perform (each node is seeded at most once and each
in-degree crosses zero at most once). -/
def kahnLoop (edges : List (String × String)) :
    Nat → List String → (String → Int) → List String → List String
  | 0, _, _, res => res
  | _ + 1, [], _, res => res
  | f + 1, cur :: rest, d, res =>
    let p := procN (nbrs edges cur) d rest
    kahnLoop edges f p.2 p.1 (res ++ [cur])

/-- Model of `WorkPlanner._topological_sort`. -/
def topologicalSort (nodes : List String) (edges : List (String × String)) :
    List String :=
  let d := initDeg edges
  kahnLoop edges (nodes.length + edges.length) (nodes.filter (fun n => d n = 0)) d []

/-- Acyclicity of the (finite) graph on `nodes`, stated in the form the
correctness proof consumes and a decision procedure can check: every nonempty
subset of the nodes (as a sublist) contains a vertex with no incoming edge
from inside the subset.  For finite graphs this is equivalent to the absence
of directed cycles. -/
def AcyclicOn (nodes : List String) (edges : List (String × String)) : Prop :=
  ∀ S ∈ nodes.sublists, S ≠ [] → ∃ x ∈ S, ∀ e ∈ edges, e.2 = x → e.1 ∉ S

instance (nodes : List String) (edges : List (String × String)) :
    Decidable (AcyclicOn nodes edges) := by
  unfold AcyclicOn; infer_instance


/-! ## Definitions for the topological-sort proof (C6) -/

/-- Position of the first occurrence of `x` (the claim's "appears strictly
before" is positional comparison; on the duplicate-free outputs below this
is the unique position). -/
def idxOf : List String → String → Nat
  | [], _ => 0
  | y :: ys, x => if y = x then 0 else idxOf ys x + 1

/-- Remaining in-degree: edges into `n` whose source is not yet emitted. -/
def dCount (edges : List (String × String)) (res : List String) (n : String) : Nat :=
  (edges.filter (fun e => decide (e.2 = n) && decide (e.1 ∉ res))).length

/-- Loop invariant for Kahn's algorithm, at state (fuel `f`, queue `q`,
in-degree map `d`, emitted prefix `res`). -/
structure KInv (nodes : List String) (edges : List (String × String))
    (f : Nat) (q : List String) (d : String → Int) (res : List String) : Prop where
  fresh : (res ++ q).Nodup
  subN : ∀ x ∈ res ++ q, x ∈ nodes
  deg : ∀ n, d n = (dCount edges res n : Int)
  qzero : ∀ x ∈ q, d x = 0
  emitz : ∀ n ∈ res, d n = 0
  pos : ∀ n ∈ nodes, n ∉ res → n ∉ q → 0 < d n
  ord : ∀ e ∈ edges, e.2 ∈ res → e.1 ∈ res ∧ idxOf res e.1 < idxOf res e.2
  fuel : (nodes.filter (fun n => decide (n ∉ res))).length ≤ f

/-! ## Definitions used to state the claims -/

/-- Erase the timestamp field (used to state that `plan` is pure in every
other field). -/
def eraseCreatedAt (g : TaskGraph) : TaskGraph := { g with created_at := "" }

/-- Byte count over changed (`+`/`-`) lines only — the quantity the claim
text names; the code's `_check_guardrails` counts context lines as well, so
this is a lower bound on what the code compares against the limit. -/
def changedLineBytes (ps : Patches) : Nat :=
  (ps.map (fun fp => (fp.2.map (fun h =>
    ((h.lines.filter (fun l => strHasPre "+" l || strHasPre "-" l)).map
      String.length).sum)).sum)).sum

/-- The guardrail triggers exactly as the claim lists them: too many files,
changed-line bytes over the limit, a blocked path, or a path not allowed. -/
def GuardTrigger (g : GuardrailsCfg) (ps : Patches) : Prop :=
  ps.length > g.max_files_per_patch ∨
  changedLineBytes ps > g.max_total_patch_bytes ∨
  (∃ fp ∈ ps, matchesPatterns fp.1 g.blocked_paths = true) ∨
  (∃ fp ∈ ps, matchesPatterns fp.1 g.allowed_paths = false)

instance (g : GuardrailsCfg) (ps : Patches) : Decidable (GuardTrigger g ps) := by
  unfold GuardTrigger; infer_instance

/-- Homogeneously typed `repo_intel` list: Python `sorted` succeeds exactly
on these. -/
def homogPy (l : List PyVal) : Prop :=
  (∀ v ∈ l, v.isStr = true) ∨ (∀ v ∈ l, v.isInt = true)

instance (l : List PyVal) : Decidable (homogPy l) := by
  unfold homogPy; infer_instance

/-- Dependencies of a node id in a task graph (lookup in the insertion-ordered
node map). -/
def patNodeDeps (g : TaskGraph) (i : String) : Option (List String) :=
  (g.nodes.lookup i).map TaskNode.dependencies

/-- Single-file single-hunk diff built from a path and hunk body lines
(standard shape: two file headers, one hunk header, then the body). -/
def renderDiff (p : String) (body : List String) : String :=
  nlJoin (["--- " ++ p, "+++ " ++ p, "@@ -1,2 +1,3 @@"] ++ body)

/-- The claim's literal count: the number of lines of the diff string that
are prefixed with `+` (file headers included — this is the spec-side
definition under comparison, written from the claim's words). -/
def literalPlusLines (diff : String) : Nat :=
  (pySplitNl diff).countP (fun l => strHasPre "+" l)

/-- The claim's literal count of `-`-prefixed lines. -/
def literalMinusLines (diff : String) : Nat :=
  (pySplitNl diff).countP (fun l => strHasPre "-" l)

/-- Well-formedness of one hunk body line for `renderDiff`: nonempty,
prefixed like hunk content, not header-shaped, and newline-free. -/
def GoodBodyLine (l : String) : Prop :=
  l ≠ "" ∧ (strHasPre " " l = true ∨ strHasPre "-" l = true ∨ strHasPre "+" l = true) ∧
  strHasPre "--- " l = false ∧ strHasPre "+++ " l = false ∧ strHasPre "@@" l = false ∧
  '\n' ∉ l.data

instance (l : String) : Decidable (GoodBodyLine l) := by
  unfold GoodBodyLine; infer_instance

/-- Well-formedness of the path used by `renderDiff`: newline-free, fixed by
`strip`, and not the `/dev/null` marker. -/
def GoodDiffPath (p : String) : Prop :=
  '\n' ∉ p.data ∧ pyStrip p = p ∧ p ≠ "/dev/null"

instance (p : String) : Decidable (GoodDiffPath p) := by
  unfold GoodDiffPath; infer_instance

/-! ## Concrete claim inputs -/

/-- The C1 failing input: a patch whose context/removed line does not match
the file content (file holds `line1`, hunk removes `DIFFERENT`). -/
def c1Diff : String :=
  "--- termnet/a.py\n+++ termnet/a.py\n@@ -1,1 +1,1 @@\n-DIFFERENT\n+new"

/-- Pre-call file system for C1. -/
def c1Fs : FS := [("termnet/a.py", "line1\n")]

/-- The C2 failing input: an ordinary context+addition diff that ends with a
trailing newline, exactly as `git diff` emits it. -/
def c2Diff : String :=
  "--- termnet/b.py\n+++ termnet/b.py\n@@ -1,2 +1,3 @@\n line1\n+added\n line2\n"

/-- Pre-call file system for C2. -/
def c2Fs : FS := [("termnet/b.py", "line1\nline2\n")]

/-! # Claims -/

/-! ## C1: conflict detection on context mismatch -/

/-- Claim C1 (code bug): a patch whose removed line does not match the
current content is supposed to yield status `conflict`/`error`, a conflict
keyed `path:hunkN`, and an unchanged file.  The code instead applies the
hunk blindly (`_apply_single_hunk` never compares context or removed lines;
`_check_conflicts`, which produces the `path:hunkN` keys, is never called
from `apply_patch`): on this input the call returns `success` with no
conflicts and rewrites the file, deleting the non-matching line. -/
theorem c1_contextMismatch_applied_without_conflict :
    (applyPatch defaultEngineCfg c1Fs c1Diff false).1.status = "success" ∧
    (applyPatch defaultEngineCfg c1Fs c1Diff false).1.conflicts = [] ∧
    (applyPatch defaultEngineCfg c1Fs c1Diff false).2 = [("termnet/a.py", "new\n")] ∧
    (applyPatch defaultEngineCfg c1Fs c1Diff false).2 ≠ c1Fs ∧
    checkConflicts defaultEngineCfg c1Fs [("termnet/a.py",
      [⟨1, 1, 1, 1, ["-DIFFERENT", "+new"]⟩])] = ["termnet/a.py:hunk1"] := by
  decide

/-! ## C2: idempotence of re-application -/

/-- Claim C2 (code bug): applying a valid patch twice is supposed to leave
the file byte-identical with the second call reporting `idempotent=true` and
performing no writes.  The parser turns the diff's trailing empty line into
an extra `" "` context line, so `_hunk_already_applied` expects one more line
than the file has and reports not-applied; the second call then re-applies
the hunk, duplicating the added line.  First call: file becomes
`line1\nadded\nline2\n`; second call: `success` with `idempotent=false` and
the file mutated to `line1\nadded\nadded\nline2\n`. -/
theorem c2_reapply_with_trailing_newline_mutates :
    (applyPatch defaultEngineCfg c2Fs c2Diff false).2
      = [("termnet/b.py", "line1\nadded\nline2\n")] ∧
    (applyPatch defaultEngineCfg
        (applyPatch defaultEngineCfg c2Fs c2Diff false).2 c2Diff false).1.idempotent
      = false ∧
    (applyPatch defaultEngineCfg
        (applyPatch defaultEngineCfg c2Fs c2Diff false).2 c2Diff false).1.status
      = "success" ∧
    (applyPatch defaultEngineCfg
        (applyPatch defaultEngineCfg c2Fs c2Diff false).2 c2Diff false).2
      = [("termnet/b.py", "line1\nadded\nadded\nline2\n")] := by
  decide

/-! ## C10: backup / restore round trip -/

/-- Claim C10 (counterexample): `_create_backup` followed by
`_restore_backup` is supposed to write each backed-up file's original
content back to its original path, including paths containing underscores.
For the existing file `a_b.py` (content `old`, later modified to `new`),
restore decodes the backup name `a_b.py` to `a/b.py`: the original path
keeps the modified content and the original content lands at `a/b.py`. -/
theorem c10_underscore_roundtrip_fails :
    fsGet (restoreBackup (createBackup true [("a_b.py", "old")] ["a_b.py"])
        (fsSet [("a_b.py", "old")] "a_b.py" "new")) "a_b.py" ≠ some "old" ∧
    fsGet (restoreBackup (createBackup true [("a_b.py", "old")] ["a_b.py"])
        (fsSet [("a_b.py", "old")] "a_b.py" "new")) "a_b.py" = some "new" ∧
    fsGet (restoreBackup (createBackup true [("a_b.py", "old")] ["a_b.py"])
        (fsSet [("a_b.py", "old")] "a_b.py" "new")) "a/b.py" = some "old" := by
  decide

/-- Reading back the key just written. -/
theorem fsGet_fsSet_self (fs : FS) (p c : String) : fsGet (fsSet fs p c) p = some c := by
  induction fs with
  | nil => simp [fsSet, fsGet]
  | cons e rest ih =>
    obtain ⟨q, c'⟩ := e
    by_cases h : q = p <;> simp [fsSet, fsGet, h, ih]

/-- Writing one key leaves other keys unchanged. -/
theorem fsGet_fsSet_ne (fs : FS) (p q c : String) (h : p ≠ q) :
    fsGet (fsSet fs p c) q = fsGet fs q := by
  induction fs with
  | nil => simp [fsSet, fsGet, h]
  | cons e rest ih =>
    obtain ⟨r, c'⟩ := e
    by_cases hr : r = p
    · subst hr
      simp [fsSet, fsGet, h]
    · simp [fsSet, fsGet, hr, ih]

/-- Decoding inverts encoding on paths without underscores. -/
theorem decodePath_encodePath (p : String) (h : '_' ∉ p.data) :
    decodePath (encodePath p) = p := by
  obtain ⟨d⟩ := p
  simp only [encodePath, decodePath, List.map_map]
  have : d.map ((fun c => if c = '_' then '/' else c) ∘ fun c => if c = '/' then '_' else c)
      = d.map id := by
    apply List.map_congr_left
    intro a ha
    by_cases h1 : a = '/'
    · simp [h1]
    · have h2 : a ≠ '_' := fun hau => h (hau ▸ ha)
      simp [h1, h2]
  simp [this]

/-- Every backup entry's name encodes one of the backed-up paths. -/
theorem createBackup_key_mem (fs : FS) (paths : List String)
    (e : String × String) (he : e ∈ createBackup true fs paths) :
    ∃ q ∈ paths, e.1 = encodePath q := by
  simp only [createBackup, Bool.not_true, Bool.false_eq_true, if_false] at he
  obtain ⟨q, hq, hmap⟩ := List.mem_filterMap.mp he
  cases hget : fsGet fs q <;> simp [hget] at hmap
  exact ⟨q, hq, by simp [← hmap]⟩

/-- One restore step. -/
theorem restoreBackup_cons (e : String × String) (b : List (String × String)) (acc : FS) :
    restoreBackup (e :: b) acc = restoreBackup b (fsSet acc (decodePath e.1) e.2) := rfl

/-- Restoring entries whose decoded names avoid `p` does not change `p`. -/
theorem restoreBackup_preserves (b : List (String × String)) (acc : FS) (p : String)
    (h : ∀ e ∈ b, decodePath e.1 ≠ p) :
    fsGet (restoreBackup b acc) p = fsGet acc p := by
  induction b generalizing acc with
  | nil => rfl
  | cons e rest ih =>
    rw [restoreBackup_cons, ih _ (fun e' he' => h e' (List.mem_cons_of_mem _ he')),
      fsGet_fsSet_ne _ _ _ _ (h e (List.mem_cons_self _ _))]

/-- Claim C10 (amended): for backed-up paths containing no underscore
(resolved, like the engine does, against the current directory — i.e. with
`repo_path="."`), `_create_backup` followed by `_restore_backup` restores
each existing file's original content at its original path, whatever
intermediate modifications `fsMid` contains. -/
theorem c10_backup_restore_roundtrip_amended (fs fsMid : FS) (paths : List String)
    (p c : String) (hund : ∀ q ∈ paths, '_' ∉ q.data) (hnd : paths.Nodup)
    (hp : p ∈ paths) (hc : fsGet fs p = some c) :
    fsGet (restoreBackup (createBackup true fs paths) fsMid) p = some c := by
  induction paths generalizing fsMid with
  | nil => cases hp
  | cons q rest ih =>
    have hq_nin : q ∉ rest := (List.nodup_cons.mp hnd).1
    have hrest_nd : rest.Nodup := (List.nodup_cons.mp hnd).2
    have hundq : '_' ∉ q.data := hund q (by simp)
    have hundrest : ∀ q' ∈ rest, '_' ∉ q'.data := fun q' hq' => hund q' (by simp [hq'])
    rcases List.mem_cons.mp hp with hqp | hprest
    · subst hqp
      have hcb : createBackup true fs (p :: rest)
          = (encodePath p, c) :: createBackup true fs rest := by
        simp [createBackup, hc]
      have hrest : ∀ e ∈ createBackup true fs rest, decodePath e.1 ≠ p := by
        intro e he
        obtain ⟨q', hq', hkey'⟩ := createBackup_key_mem fs rest e he
        rw [hkey', decodePath_encodePath q' (hundrest q' hq')]
        intro hq'p
        exact hq_nin (hq'p ▸ hq')
      rw [hcb, restoreBackup_cons, restoreBackup_preserves _ _ _ hrest,
        decodePath_encodePath p hundq, fsGet_fsSet_self]
    · cases hget : fsGet fs q with
      | none =>
        have hcb : createBackup true fs (q :: rest) = createBackup true fs rest := by
          simp [createBackup, hget]
        rw [hcb]
        exact ih fsMid hundrest hrest_nd hprest
      | some cq =>
        have hcb : createBackup true fs (q :: rest)
            = (encodePath q, cq) :: createBackup true fs rest := by
          simp [createBackup, hget]
        rw [hcb, restoreBackup_cons]
        exact ih _ hundrest hrest_nd hprest

/-- Witness for C10 (amended) at a concrete underscore-free path. -/
theorem c10_backup_restore_witness :
    (∀ q ∈ ["termnet/a.py"], '_' ∉ q.data) ∧ (["termnet/a.py"] : List String).Nodup ∧
    "termnet/a.py" ∈ ["termnet/a.py"] ∧
    fsGet [("termnet/a.py", "old")] "termnet/a.py" = some "old" ∧
    fsGet (restoreBackup (createBackup true [("termnet/a.py", "old")] ["termnet/a.py"])
        (fsSet [("termnet/a.py", "old")] "termnet/a.py" "new")) "termnet/a.py"
      = some "old" :=
  ⟨by decide, by decide, by decide, by decide,
    c10_backup_restore_roundtrip_amended [("termnet/a.py", "old")]
      (fsSet [("termnet/a.py", "old")] "termnet/a.py" "new") ["termnet/a.py"]
      "termnet/a.py" "old" (by decide) (by decide) (by decide) (by decide)⟩

/-! ## C4: plan determinism -/

/-- Claim C4 (confirmed): two calls to `plan` with identical
`(goal, repo_intel, seed)` yield identical `plan_hash`, `nodes` and `edges`.
The only ambient input of the Python function is the wall clock
(`datetime.utcnow()`), modelled by the explicit `t1`/`t2` arguments; the
three compared fields are independent of it. -/
theorem c4_plan_deterministic (maxTasks : Nat) (seed : Int) (goal : String)
    (files symbols : List PyVal) (t1 t2 : String) :
    (plan maxTasks seed goal files symbols t1).map TaskGraph.plan_hash
      = (plan maxTasks seed goal files symbols t2).map TaskGraph.plan_hash ∧
    (plan maxTasks seed goal files symbols t1).map TaskGraph.nodes
      = (plan maxTasks seed goal files symbols t2).map TaskGraph.nodes ∧
    (plan maxTasks seed goal files symbols t1).map TaskGraph.edges
      = (plan maxTasks seed goal files symbols t2).map TaskGraph.edges := by
  cases h1 : pySorted files <;> cases h2 : pySorted symbols <;>
    simp [plan, h1, h2, Except.map]

/-! ## C5: plan purity including created_at -/

set_option maxRecDepth 4000 in
/-- Claim C5 (counterexample): `plan` is not a pure function of
`(goal, repo_intel, seed)` alone — `created_at` records
`datetime.utcnow().isoformat()`, so calls at different times return
different graphs even with identical arguments. -/
theorem c5_created_at_depends_on_time :
    plan 20 42 "g" [] [] "2024-01-01T00:00:00"
      ≠ plan 20 42 "g" [] [] "2024-01-01T00:00:01" := by
  decide

/-- Claim C5 (amended): identical `(goal, repo_intel, seed)` produce graphs
identical in every field except `created_at`, which records the wall-clock
time of the call. -/
theorem c5_plan_pure_except_created_at (maxTasks : Nat) (seed : Int) (goal : String)
    (files symbols : List PyVal) (t1 t2 : String) :
    (plan maxTasks seed goal files symbols t1).map eraseCreatedAt
      = (plan maxTasks seed goal files symbols t2).map eraseCreatedAt := by
  cases h1 : pySorted files <;> cases h2 : pySorted symbols <;>
    simp [plan, h1, h2, eraseCreatedAt, Except.map]

/-! ## C7: scenario A -/

/-- Claim C7 (confirmed): for goal "Fix bug in parser" and
`repo_intel = {files: ["a.py"], symbols: ["parse"]}`, the graph's nodes are
exactly `analyze_requirements`, `fix_implementation`, `validate_changes`
(so in particular it includes them), with
`fix_implementation.dependencies = ["analyze_requirements"]` and
`validate_changes.dependencies = ["fix_implementation"]`, at every call
time. -/
theorem c7_scenarioA (t : String) :
    (plan 20 42 "Fix bug in parser" [.pyS "a.py"] [.pyS "parse"] t).map
        (fun g => (g.nodes.map Prod.fst,
          (patNodeDeps g "fix_implementation"),
          (patNodeDeps g "validate_changes")))
      = .ok (["analyze_requirements", "fix_implementation", "validate_changes"],
          some ["analyze_requirements"], some ["fix_implementation"]) := by
  rfl

/-! ## C9: no exception escapes the public API -/

/-- Claim C9 (counterexample): `plan` has no exception handler, and
`sorted(repo_intel.get("files", []))` raises `TypeError` on a mixed-type
list, which escapes to the caller instead of a value object. -/
theorem c9_plan_mixed_types_raises :
    plan 20 42 "g" [.pyI 1, .pyS "a"] [] "t"
      = .error "TypeError: '<' not supported between instances of 'str' and 'int'" := by
  rfl

/-- Python `sorted` succeeds on homogeneously typed lists. -/
theorem pySorted_ok_of_homog (l : List PyVal) (h : homogPy l) :
    ∃ l', pySorted l = .ok l' := by
  rcases h with h | h
  · exact ⟨_, by unfold pySorted; rw [if_pos (List.all_eq_true.mpr h)]⟩
  · by_cases hs : l.all PyVal.isStr = true
    · exact ⟨_, by unfold pySorted; rw [if_pos hs]⟩
    · exact ⟨_, by
        unfold pySorted
        rw [if_neg hs, if_pos (List.all_eq_true.mpr h)]⟩

/-- Claim C9 (amended): `plan` returns a task-graph value object for every
goal and every `repo_intel` whose `files` and `symbols` lists are each
homogeneously typed (the lists Python can sort); for mixed-type lists a
`TypeError` escapes `plan`.  (`apply_patch` and `execute_goal` wrap their
bodies in handlers in the source; the escape hatch refuting the claim as
stated is `plan`.) -/
theorem c9_plan_total_on_homogeneous (maxTasks : Nat) (seed : Int) (goal : String)
    (files symbols : List PyVal) (t : String)
    (hf : homogPy files) (hs : homogPy symbols) :
    ∃ g, plan maxTasks seed goal files symbols t = .ok g := by
  obtain ⟨fs', hfs⟩ := pySorted_ok_of_homog files hf
  obtain ⟨ss', hss⟩ := pySorted_ok_of_homog symbols hs
  exact ⟨_, by unfold plan; rw [hfs, hss]⟩

/-- Witness for C9 (amended) at concrete homogeneous inputs. -/
theorem c9_plan_total_witness :
    homogPy [.pyS "a.py"] ∧ homogPy [.pyS "parse"] ∧
    ∃ g, plan 20 42 "add a feature" [.pyS "a.py"] [.pyS "parse"] "t" = .ok g :=
  ⟨by decide, by decide,
    c9_plan_total_on_homogeneous 20 42 "add a feature" [.pyS "a.py"] [.pyS "parse"] "t"
      (by decide) (by decide)⟩

/-! ## C3: guardrail blocking is all-or-nothing -/

/-- Changed-line bytes of one line list are at most the total bytes the code
sums (which includes context lines). -/
theorem changed_le_total_lines (p : String → Bool) (ls : List String) :
    ((ls.filter p).map String.length).sum ≤ (ls.map String.length).sum := by
  induction ls with
  | nil => simp
  | cons l rest ih =>
    by_cases hp : p l <;> simp [hp] <;> omega

/-- The claim's changed-line byte count is a lower bound for the byte count
the code checks. -/
theorem changedLineBytes_le_totalPatchBytes (ps : Patches) :
    changedLineBytes ps ≤ totalPatchBytes ps := by
  unfold changedLineBytes totalPatchBytes
  induction ps with
  | nil => simp
  | cons fp rest ih =>
    simp only [List.map_cons, List.sum_cons]
    have hfile : (fp.2.map (fun h =>
        ((h.lines.filter (fun l => strHasPre "+" l || strHasPre "-" l)).map
          String.length).sum)).sum
        ≤ (fp.2.map (fun h => (h.lines.map String.length).sum)).sum := by
      induction fp.2 with
      | nil => simp
      | cons h hs ihh =>
        simp only [List.map_cons, List.sum_cons]
        have := changed_le_total_lines (fun l => strHasPre "+" l || strHasPre "-" l) h.lines
        omega
    omega

/-- Any of the claim's four triggers makes `_check_guardrails` return at
least one violation. -/
theorem guardTrigger_violations_ne_nil (g : GuardrailsCfg) (ps : Patches)
    (htrig : GuardTrigger g ps) : checkGuardrails g ps ≠ [] := by
  intro hnil
  unfold checkGuardrails at hnil
  simp only [List.append_eq_nil, List.flatMap_eq_nil_iff] at hnil
  obtain ⟨⟨h1, h2⟩, h3⟩ := hnil
  rcases htrig with h | h | ⟨fp, hfp, hmatch⟩ | ⟨fp, hfp, hmatch⟩
  · rw [if_pos h] at h1
    exact List.cons_ne_nil _ _ h1
  · have hge : totalPatchBytes ps > g.max_total_patch_bytes :=
      lt_of_lt_of_le h (changedLineBytes_le_totalPatchBytes ps)
    rw [if_pos hge] at h2
    exact List.cons_ne_nil _ _ h2
  · have hfp2 := h3 fp hfp
    have hb := hfp2.1
    rw [if_pos hmatch] at hb
    exact List.cons_ne_nil _ _ hb
  · have hfp2 := h3 fp hfp
    have ha := hfp2.2
    rw [if_pos (show (!matchesPatterns fp.1 g.allowed_paths) = true by simp [hmatch])] at ha
    exact List.cons_ne_nil _ _ ha

/-- Claim C3 (confirmed): whenever a parsed patch violates a guardrail (more
files than `max_files_per_patch`, changed-line bytes over
`max_total_patch_bytes`, a blocked path, or a path not allowed), `apply_patch`
returns status `blocked` with a message rendering every violation's reason,
and the file system is returned unchanged — for dry and real runs alike. -/
theorem c3_guardrail_block_all_or_nothing (cfg : EngineCfg) (fs : FS) (diff : String)
    (dryRun : Bool) (ps : Patches)
    (hparse : parseUnifiedDiff diff = .ok ps)
    (htrig : GuardTrigger cfg.guardrails ps) :
    applyPatch cfg fs diff dryRun =
      ({ status := "blocked", files_touched := [], idempotent := false
         message := "Guardrail violations: " ++
           pyListRepr ((checkGuardrails cfg.guardrails ps).map (·.reason)) }, fs) := by
  have hne := guardTrigger_violations_ne_nil _ _ htrig
  cases h : checkGuardrails cfg.guardrails ps with
  | nil => exact absurd h hne
  | cons v vs => simp only [applyPatch, hparse, h]

/-- Witness for C3 at a concrete blocked-path patch under the default
configuration. -/
theorem c3_guardrail_block_witness :
    parseUnifiedDiff "--- .git/x\n+++ .git/x\n@@ -1 +1 @@\n+a"
      = .ok [(".git/x", [⟨1, 1, 1, 1, ["+a"]⟩])] ∧
    GuardTrigger defaultEngineCfg.guardrails [(".git/x", [⟨1, 1, 1, 1, ["+a"]⟩])] ∧
    applyPatch defaultEngineCfg [("termnet/a.py", "keep")]
        "--- .git/x\n+++ .git/x\n@@ -1 +1 @@\n+a" false =
      ({ status := "blocked", files_touched := [], idempotent := false
         message := "Guardrail violations: " ++
           pyListRepr ((checkGuardrails defaultEngineCfg.guardrails
             [(".git/x", [⟨1, 1, 1, 1, ["+a"]⟩])]).map (·.reason)) },
       [("termnet/a.py", "keep")]) :=
  ⟨by decide, by decide,
    c3_guardrail_block_all_or_nothing defaultEngineCfg [("termnet/a.py", "keep")]
      "--- .git/x\n+++ .git/x\n@@ -1 +1 @@\n+a" false
      [(".git/x", [⟨1, 1, 1, 1, ["+a"]⟩])] (by decide) (by decide)⟩

/-! ## C6: topological sort correctness

The proof tracks the loop state with an invariant: the in-degree map always
counts, for each node, the edges whose source has not yet been emitted; the
queue holds exactly the unemitted zero-in-degree nodes; emitted and queued
nodes are distinct nodes of the graph; and the edge-order property already
holds on the emitted prefix. -/

theorem cnt_nil (b : String) : cnt b [] = 0 := rfl

theorem cnt_cons (b x : String) (l : List String) :
    cnt b (x :: l) = (if x = b then 1 else 0) + cnt b l := by
  by_cases h : x = b
  · simp [cnt, List.filter_cons, h]
    omega
  · simp [cnt, List.filter_cons, h]

theorem cnt_pos_mem (b : String) (l : List String) (h : 0 < cnt b l) : b ∈ l := by
  induction l with
  | nil => simp [cnt] at h
  | cons x xs ih =>
    rw [cnt_cons] at h
    by_cases hx : x = b
    · exact hx ▸ List.mem_cons_self _ _
    · simp [hx] at h
      exact List.mem_cons_of_mem _ (ih h)

theorem idxOf_append_left (l t : List String) (x : String) (h : x ∈ l) :
    idxOf (l ++ t) x = idxOf l x := by
  induction l with
  | nil => cases h
  | cons y ys ih =>
    by_cases hy : y = x
    · simp [idxOf, hy]
    · rcases List.mem_cons.mp h with h' | h'
      · exact absurd h'.symm hy
      · simp [idxOf, hy, ih h']

theorem idxOf_append_self (l : List String) (x : String) (h : x ∉ l) :
    idxOf (l ++ [x]) x = l.length := by
  induction l with
  | nil => simp [idxOf]
  | cons y ys ih =>
    have hy : y ≠ x := fun hh => h (hh ▸ List.mem_cons_self _ _)
    simp [idxOf, hy, ih (fun hh => h (List.mem_cons_of_mem _ hh))]

theorem idxOf_lt_length (l : List String) (x : String) (h : x ∈ l) :
    idxOf l x < l.length := by
  induction l with
  | nil => cases h
  | cons y ys ih =>
    by_cases hy : y = x
    · simp [idxOf, hy]
    · rcases List.mem_cons.mp h with h' | h'
      · exact absurd h'.symm hy
      · have := ih h'
        simp only [idxOf, if_neg hy, List.length_cons]
        omega

/-- Splitting the remaining in-degree of `n` when `cur` is emitted: the
edges out of `cur` into `n` move from "pending" to "emitted". -/
theorem deg_split (edges : List (String × String)) (res : List String) (cur : String)
    (hcur : cur ∉ res) (n : String) :
    dCount edges res n = dCount edges (res ++ [cur]) n + cnt n (nbrs edges cur) := by
  induction edges with
  | nil => rfl
  | cons e rest ih =>
    simp only [dCount, nbrs, List.filter_cons] at *
    by_cases h2 : e.2 = n <;> by_cases h1 : e.1 = cur <;> by_cases hr : e.1 ∈ res <;>
      simp [h2, h1, hr, cnt_cons, List.mem_append, hcur] at * <;> omega

/-- A zero remaining in-degree means every in-edge source is emitted. -/
theorem dCount_zero_sources (edges : List (String × String)) (res : List String)
    (n : String) (h : dCount edges res n = 0) :
    ∀ e ∈ edges, e.2 = n → e.1 ∈ res := by
  intro e he h2
  by_contra h1
  have hmem : e ∈ edges.filter (fun e => decide (e.2 = n) && decide (e.1 ∉ res)) :=
    List.mem_filter.mpr ⟨he, by simp [h2, h1]⟩
  have hlen : (edges.filter (fun e => decide (e.2 = n) && decide (e.1 ∉ res))).length = 0 := h
  rw [List.length_eq_zero] at hlen
  rw [hlen] at hmem
  cases hmem

/-- A positive remaining in-degree exhibits a pending in-edge. -/
theorem dCount_pos_edge (edges : List (String × String)) (res : List String)
    (n : String) (h : 0 < dCount edges res n) :
    ∃ e ∈ edges, e.2 = n ∧ e.1 ∉ res := by
  unfold dCount at h
  rw [List.length_pos] at h
  obtain ⟨e, he⟩ := List.exists_mem_of_ne_nil _ h
  have := List.mem_filter.mp he
  refine ⟨e, this.1, ?_, ?_⟩
  · have := this.2
    simp at this
    exact this.1
  · have := this.2
    simp at this
    exact this.2

/-- Membership in the adjacency list is an edge out of `a`. -/
theorem mem_nbrs (edges : List (String × String)) (a b : String)
    (h : b ∈ nbrs edges a) : ∃ e ∈ edges, e.1 = a ∧ e.2 = b := by
  unfold nbrs at h
  obtain ⟨e, he, hb⟩ := List.mem_map.mp h
  have := List.mem_filter.mp he
  refine ⟨e, this.1, ?_, hb⟩
  have := this.2
  simpa using this

/-- Out-edges of an unemitted node are pending for their targets. -/
theorem cnt_nbrs_le_dCount (edges : List (String × String)) (res : List String)
    (cur : String) (hcur : cur ∉ res) (b : String) :
    cnt b (nbrs edges cur) ≤ dCount edges res b := by
  have := deg_split edges res cur hcur b
  omega

/-- Effect of the neighbor-processing loop: every neighbor occurrence
decrements its target once, the queue is extended (FIFO) by exactly the nodes
whose in-degree hits zero, each once, and those are the nodes whose previous
in-degree equals their occurrence count. -/
theorem procN_spec (ns : List String) (d : String → Int) (q : List String)
    (hle : ∀ b, (cnt b ns : Int) ≤ d b) :
    (procN ns d q).1 = (fun x => d x - (cnt x ns : Int)) ∧
    ∃ new, (procN ns d q).2 = q ++ new ∧ new.Nodup ∧
      (∀ b, b ∈ new ↔ 0 < cnt b ns ∧ d b = (cnt b ns : Int)) := by
  induction ns generalizing d q with
  | nil =>
    exact ⟨funext fun x => by simp [procN, cnt],
      [], by simp [procN], List.nodup_nil, fun b => by simp [cnt]⟩
  | cons b bs ih =>
    have hstep : procN (b :: bs) d q
        = procN bs (updf d b (d b - 1))
            (if updf d b (d b - 1) b = 0 then q ++ [b] else q) := rfl
    have hdb : updf d b (d b - 1) b = d b - 1 := by simp [updf]
    have hle' : ∀ x, (cnt x bs : Int) ≤ updf d b (d b - 1) x := by
      intro x
      by_cases hx : x = b
      · subst hx
        have := hle x
        rw [cnt_cons, if_pos rfl] at this
        rw [hdb]
        push_cast at this ⊢
        omega
      · have := hle x
        rw [cnt_cons, if_neg (fun hh => hx hh.symm)] at this
        simp only [updf, if_neg hx]
        omega
    obtain ⟨hdeg, new', hq', hnd', hiff'⟩ :=
      ih (updf d b (d b - 1)) (if updf d b (d b - 1) b = 0 then q ++ [b] else q) hle'
    constructor
    · rw [hstep, hdeg]
      funext x
      by_cases hx : x = b
      · subst hx
        rw [hdb, cnt_cons, if_pos rfl]
        push_cast
        omega
      · rw [cnt_cons, if_neg (fun hh => hx hh.symm)]
        simp only [updf, if_neg hx]
        omega
    · by_cases hd : updf d b (d b - 1) b = 0
      · have hdb1 : d b = 1 := by rw [hdb] at hd; omega
        have hcnt0 : cnt b bs = 0 := by
          have := hle b
          rw [cnt_cons, if_pos rfl, hdb1] at this
          push_cast at this
          omega
        refine ⟨b :: new', ?_, ?_, ?_⟩
        · rw [hstep, hq', if_pos hd, List.append_assoc]
          rfl
        · refine List.nodup_cons.mpr ⟨fun hmem => ?_, hnd'⟩
          have := (hiff' b).mp hmem
          rw [hd] at this
          omega
        · intro x
          rw [List.mem_cons, hiff' x]
          by_cases hx : x = b
          · subst hx
            rw [cnt_cons, if_pos rfl, hcnt0, hdb1]
            simp
          · rw [cnt_cons, if_neg (fun hh => hx hh.symm)]
            simp only [updf, if_neg hx]
            simp [hx]
      · refine ⟨new', ?_, hnd', ?_⟩
        · rw [hstep, hq', if_neg hd]
        · intro x
          rw [hiff' x]
          by_cases hx : x = b
          · subst hx
            rw [hdb] at hd ⊢
            rw [cnt_cons, if_pos rfl]
            have := hle x
            rw [cnt_cons, if_pos rfl] at this
            constructor
            · rintro ⟨hpos, heq⟩
              push_cast at *
              omega
            · rintro ⟨hpos, heq⟩
              push_cast at *
              omega
          · rw [cnt_cons, if_neg (fun hh => hx hh.symm)]
            simp only [updf, if_neg hx]
            simp

/-- Emitting a node removes exactly one entry from the unemitted count. -/
theorem filter_unemitted_shrink (nodes res : List String) (cur : String)
    (hnd : nodes.Nodup) (hc : cur ∈ nodes) (hcr : cur ∉ res) :
    (nodes.filter (fun n => decide (n ∉ res))).length
      = (nodes.filter (fun n => decide (n ∉ res ++ [cur]))).length + 1 := by
  induction nodes with
  | nil => cases hc
  | cons x xs ih =>
    have hx_nin : x ∉ xs := (List.nodup_cons.mp hnd).1
    have hxs_nd : xs.Nodup := (List.nodup_cons.mp hnd).2
    by_cases hx : x = cur
    · subst hx
      have hagree : xs.filter (fun n => decide (n ∉ res))
          = xs.filter (fun n => decide (n ∉ res ++ [x])) := by
        apply List.filter_congr
        intro n hn
        have hnx : n ≠ x := fun hh => hx_nin (hh ▸ hn)
        simp [List.mem_append, hnx]
      simp only [List.filter_cons, decide_eq_true_eq]
      rw [if_pos (by simpa using hcr), if_neg (by simp)]
      simp only [List.length_cons]
      rw [hagree]
    · have hsame : (x ∉ res) ↔ (x ∉ res ++ [cur]) := by
        simp [List.mem_append, hx]
      rcases List.mem_cons.mp hc with hcx | hcxs
      · exact absurd hcx.symm hx
      · by_cases hxr : x ∈ res
        · simp only [List.filter_cons, decide_eq_true_eq]
          rw [if_neg (by simpa using hxr), if_neg (by simp [List.mem_append]; exact fun h => absurd hxr h)]
          exact ih hxs_nd hcxs
        · simp only [List.filter_cons, decide_eq_true_eq]
          rw [if_pos (by simpa using hxr), if_pos (by simp [List.mem_append, hxr, hx])]
          simp only [List.length_cons]
          rw [ih hxs_nd hcxs]

/-- One loop iteration preserves the invariant, consuming one unit of fuel
and emitting the popped node. -/
theorem kahn_step (nodes : List String) (edges : List (String × String))
    (hend : ∀ e ∈ edges, e.1 ∈ nodes ∧ e.2 ∈ nodes) (hnd : nodes.Nodup)
    (f : Nat) (cur : String) (rest : List String) (d : String → Int) (res : List String)
    (hinv : KInv nodes edges (f + 1) (cur :: rest) d res) :
    KInv nodes edges f (procN (nbrs edges cur) d rest).2
      (procN (nbrs edges cur) d rest).1 (res ++ [cur]) := by
  obtain ⟨hfresh, hsubN, hdeg, hqzero, hemitz, hpos, hord, hfuel⟩ := hinv
  have hsplitnd := List.nodup_append.mp hfresh
  have hres_nd : res.Nodup := hsplitnd.1
  have hq_nd : (cur :: rest).Nodup := hsplitnd.2.1
  have hdisj : res.Disjoint (cur :: rest) := hsplitnd.2.2
  have hcur_nres : cur ∉ res := fun hc => hdisj hc (List.mem_cons_self _ _)
  have hcur_nrest : cur ∉ rest := (List.nodup_cons.mp hq_nd).1
  have hrest_nd : rest.Nodup := (List.nodup_cons.mp hq_nd).2
  have hcur_nodes : cur ∈ nodes := hsubN cur (by simp)
  have hdcur : d cur = 0 := hqzero cur (by simp)
  have hle : ∀ b, (cnt b (nbrs edges cur) : Int) ≤ d b := by
    intro b
    rw [hdeg b]
    exact_mod_cast cnt_nbrs_le_dCount edges res cur hcur_nres b
  obtain ⟨hdeg', new, hq', hndnew, hiff⟩ := procN_spec (nbrs edges cur) d rest hle
  have hnew_dpos : ∀ b ∈ new, 0 < d b := by
    intro b hb
    obtain ⟨hc, he⟩ := (hiff b).mp hb
    rw [he]
    exact_mod_cast hc
  have hnew_nres : ∀ b ∈ new, b ∉ res := fun b hb hbr => by
    have h1 := hemitz b hbr
    have h2 := hnew_dpos b hb
    omega
  have hnew_ncur : ∀ b ∈ new, b ≠ cur := fun b hb hbc => by
    have h2 := hnew_dpos b hb
    rw [hbc, hdcur] at h2
    omega
  have hnew_nrest : ∀ b ∈ new, b ∉ rest := fun b hb hbr => by
    have h1 := hqzero b (List.mem_cons_of_mem _ hbr)
    have h2 := hnew_dpos b hb
    omega
  have hnew_nodes : ∀ b ∈ new, b ∈ nodes := by
    intro b hb
    obtain ⟨hc, _⟩ := (hiff b).mp hb
    obtain ⟨e, he, _, h2⟩ := mem_nbrs edges cur b (cnt_pos_mem _ _ hc)
    exact h2 ▸ (hend e he).2
  refine ⟨?_, ?_, ?_, ?_, ?_, ?_, ?_, ?_⟩
  · -- fresh
    rw [hq', List.nodup_append]
    refine ⟨?_, ?_, ?_⟩
    · rw [List.nodup_append]
      exact ⟨hres_nd, List.nodup_singleton _,
        fun a ha hac => hcur_nres ((List.mem_singleton.mp hac) ▸ ha)⟩
    · rw [List.nodup_append]
      exact ⟨hrest_nd, hndnew, fun a har han => hnew_nrest a han har⟩
    · intro a ha hb
      rcases List.mem_append.mp ha with har | hac
      · rcases List.mem_append.mp hb with hrr | hnn
        · exact hdisj har (List.mem_cons_of_mem _ hrr)
        · exact hnew_nres a hnn har
      · have hac : a = cur := List.mem_singleton.mp hac
        subst hac
        rcases List.mem_append.mp hb with hrr | hnn
        · exact hcur_nrest hrr
        · exact hnew_ncur a hnn rfl
  · -- subN
    intro x hx
    rcases List.mem_append.mp hx with hx1 | hx2
    · rcases List.mem_append.mp hx1 with hxr | hxc
      · exact hsubN x (List.mem_append_left _ hxr)
      · exact (List.mem_singleton.mp hxc) ▸ hcur_nodes
    · rw [hq'] at hx2
      rcases List.mem_append.mp hx2 with hxr | hxn
      · exact hsubN x (List.mem_append_right _ (List.mem_cons_of_mem _ hxr))
      · exact hnew_nodes x hxn
  · -- deg
    intro n
    rw [hdeg']
    have h1 := hdeg n
    have h2 := deg_split edges res cur hcur_nres n
    push_cast at *
    omega
  · -- qzero
    intro x hx
    rw [hq'] at hx
    have hdx : (procN (nbrs edges cur) d rest).1 x
        = d x - (cnt x (nbrs edges cur) : Int) := congrFun hdeg' x
    rw [hdx]
    rcases List.mem_append.mp hx with hxr | hxn
    · have h1 := hqzero x (List.mem_cons_of_mem _ hxr)
      have h2 := hle x
      have h3 : (0 : Int) ≤ (cnt x (nbrs edges cur) : Int) := by positivity
      omega
    · obtain ⟨_, he⟩ := (hiff x).mp hxn
      omega
  · -- emitz
    intro n hn
    have hdx : (procN (nbrs edges cur) d rest).1 n
        = d n - (cnt n (nbrs edges cur) : Int) := congrFun hdeg' n
    rw [hdx]
    rcases List.mem_append.mp hn with hnr | hnc
    · have h1 := hemitz n hnr
      have h2 := hle n
      have h3 : (0 : Int) ≤ (cnt n (nbrs edges cur) : Int) := by positivity
      omega
    · have hnc : n = cur := List.mem_singleton.mp hnc
      have h1 : d n = 0 := by rw [hnc]; exact hdcur
      have h2 := hle n
      have h3 : (0 : Int) ≤ (cnt n (nbrs edges cur) : Int) := by positivity
      omega
  · -- pos
    intro n hn hn1 hn2
    rw [hq'] at hn2
    have hnres : n ∉ res := fun h => hn1 (List.mem_append_left _ h)
    have hncur : n ≠ cur := fun h => hn1 (List.mem_append_right _ (by simp [h]))
    have hnrest : n ∉ rest := fun h => hn2 (List.mem_append_left _ h)
    have hnnew : n ∉ new := fun h => hn2 (List.mem_append_right _ h)
    have hdn := hpos n hn hnres (by
      intro h
      rcases List.mem_cons.mp h with h | h
      exacts [hncur h, hnrest h])
    have hdx : (procN (nbrs edges cur) d rest).1 n
        = d n - (cnt n (nbrs edges cur) : Int) := congrFun hdeg' n
    rw [hdx]
    by_cases hcnt : cnt n (nbrs edges cur) = 0
    · omega
    · have hne : ¬(0 < cnt n (nbrs edges cur) ∧ d n = (cnt n (nbrs edges cur) : Int)) :=
        fun hand => hnnew ((hiff n).mpr hand)
      have hlt : d n ≠ (cnt n (nbrs edges cur) : Int) := by
        intro heq
        exact hne ⟨Nat.pos_of_ne_zero hcnt, heq⟩
      have h2 := hle n
      omega
  · -- ord
    intro e he he2
    rcases List.mem_append.mp he2 with h | h
    · obtain ⟨h1, hidx⟩ := hord e he h
      refine ⟨List.mem_append_left _ h1, ?_⟩
      rw [idxOf_append_left _ _ _ h1, idxOf_append_left _ _ _ h]
      exact hidx
    · have hecur : e.2 = cur := List.mem_singleton.mp h
      have hzero : dCount edges res cur = 0 := by
        have h1 := hdeg cur
        rw [hdcur] at h1
        exact_mod_cast h1.symm
      have hsrc : e.1 ∈ res := dCount_zero_sources edges res cur hzero e he hecur
      refine ⟨List.mem_append_left _ hsrc, ?_⟩
      rw [hecur, idxOf_append_left _ _ _ hsrc, idxOf_append_self res cur hcur_nres]
      exact idxOf_lt_length res e.1 hsrc
  · -- fuel
    have := filter_unemitted_shrink nodes res cur hnd hcur_nodes hcur_nres
    omega

/-- A duplicate-free emitted list covering all nodes is a permutation of the
node list. -/
theorem kperm_of_covered (nodes res : List String) (hnodesnd : nodes.Nodup)
    (hresnd : res.Nodup) (hsub : ∀ x ∈ res, x ∈ nodes)
    (hcov : (nodes.filter (fun n => decide (n ∉ res))).length = 0) :
    res.Perm nodes := by
  have hnil : nodes.filter (fun n => decide (n ∉ res)) = [] := List.length_eq_zero.mp hcov
  have hcov' : ∀ n ∈ nodes, n ∈ res := by
    intro n hn
    by_contra hnr
    have hmem : n ∈ nodes.filter (fun n => decide (n ∉ res)) :=
      List.mem_filter.mpr ⟨hn, by simpa using hnr⟩
    rw [hnil] at hmem
    cases hmem
  exact (hresnd.subperm (fun x hx => hsub x hx)).antisymm
    (hnodesnd.subperm (fun x hx => hcov' x hx))

/-- With the queue empty, acyclicity forces every node to be emitted. -/
theorem kahn_empty_queue (nodes : List String) (edges : List (String × String))
    (hend : ∀ e ∈ edges, e.1 ∈ nodes ∧ e.2 ∈ nodes) (hnd : nodes.Nodup)
    (hacyc : AcyclicOn nodes edges)
    (f : Nat) (d : String → Int) (res : List String)
    (hinv : KInv nodes edges f [] d res) : res.Perm nodes := by
  obtain ⟨hfresh, hsubN, hdeg, _, _, hpos, _, _⟩ := hinv
  have hresnd : res.Nodup := by simpa using hfresh
  have hsub : ∀ x ∈ res, x ∈ nodes := fun x hx => hsubN x (by simpa using hx)
  by_cases hS : nodes.filter (fun n => decide (n ∉ res)) = []
  · exact kperm_of_covered nodes res hnd hresnd hsub (by rw [hS]; rfl)
  · exfalso
    have hsubl : (nodes.filter (fun n => decide (n ∉ res))).Sublist nodes :=
      List.filter_sublist nodes
    obtain ⟨x, hxS, hx⟩ := hacyc _ (List.mem_sublists.mpr hsubl) hS
    have hxfacts := List.mem_filter.mp hxS
    have hxnodes : x ∈ nodes := hxfacts.1
    have hxnres : x ∉ res := by simpa using hxfacts.2
    have hposx := hpos x hxnodes hxnres (List.not_mem_nil x)
    rw [hdeg x] at hposx
    have hdpos : 0 < dCount edges res x := by exact_mod_cast hposx
    obtain ⟨e, he, h2, h1⟩ := dCount_pos_edge edges res x hdpos
    have he1 : e.1 ∈ nodes.filter (fun n => decide (n ∉ res)) :=
      List.mem_filter.mpr ⟨(hend e he).1, by simpa using h1⟩
    exact hx e he h2 he1

/-- The fuelled loop, started from any invariant state, emits a permutation
of the nodes in an order that respects every edge. -/
theorem kahnLoop_correct (nodes : List String) (edges : List (String × String))
    (hend : ∀ e ∈ edges, e.1 ∈ nodes ∧ e.2 ∈ nodes) (hnd : nodes.Nodup)
    (hacyc : AcyclicOn nodes edges) :
    ∀ (f : Nat) (q : List String) (d : String → Int) (res : List String),
      KInv nodes edges f q d res →
      (kahnLoop edges f q d res).Perm nodes ∧
      (∀ e ∈ edges, e.2 ∈ kahnLoop edges f q d res →
        e.1 ∈ kahnLoop edges f q d res ∧
        idxOf (kahnLoop edges f q d res) e.1 < idxOf (kahnLoop edges f q d res) e.2) := by
  intro f
  induction f with
  | zero =>
    intro q d res hinv
    have hresnd : res.Nodup := by
      have := hinv.fresh
      exact (List.nodup_append.mp this).1
    have hsub : ∀ x ∈ res, x ∈ nodes := fun x hx => hinv.subN x (List.mem_append_left _ hx)
    have hcov : (nodes.filter (fun n => decide (n ∉ res))).length = 0 :=
      Nat.le_zero.mp hinv.fuel
    exact ⟨kperm_of_covered nodes res hnd hresnd hsub hcov,
      fun e he he2 => hinv.ord e he he2⟩
  | succ f ih =>
    intro q d res hinv
    cases q with
    | nil =>
      exact ⟨kahn_empty_queue nodes edges hend hnd hacyc _ d res hinv,
        fun e he he2 => hinv.ord e he he2⟩
    | cons cur rest =>
      have hred : kahnLoop edges (f + 1) (cur :: rest) d res
          = kahnLoop edges f (procN (nbrs edges cur) d rest).2
              (procN (nbrs edges cur) d rest).1 (res ++ [cur]) := rfl
      rw [hred]
      exact ih _ _ _ (kahn_step nodes edges hend hnd f cur rest d res hinv)

/-- `_hash_inputs`-independent form of the seeded in-degree map. -/
theorem initDeg_aux (edges : List (String × String)) (d0 : String → Int) (n : String) :
    (edges.foldl (fun d e => updf d e.2 (d e.2 + 1)) d0) n
      = d0 n + ((edges.filter (fun e => decide (e.2 = n))).length : Int) := by
  induction edges generalizing d0 with
  | nil => simp
  | cons e rest ih =>
    rw [List.foldl_cons, ih, List.filter_cons]
    by_cases he : e.2 = n
    · subst he
      rw [if_pos (by simp)]
      simp only [updf, List.length_cons, if_true]
      push_cast
      omega
    · rw [if_neg (by simpa using he)]
      simp only [updf]
      rw [if_neg (fun hh => he hh.symm)]

/-- The initial in-degree map agrees with the remaining-degree count at the
empty emitted prefix. -/
theorem initDeg_eq_dCount (edges : List (String × String)) (n : String) :
    initDeg edges n = (dCount edges [] n : Int) := by
  unfold initDeg dCount
  rw [initDeg_aux]
  have : edges.filter (fun e => decide (e.2 = n) && decide (e.1 ∉ ([] : List String)))
      = edges.filter (fun e => decide (e.2 = n)) := by
    apply List.filter_congr
    intro e he
    simp
  rw [this]
  simp

/-- Claim C6 (confirmed): on a duplicate-free node map whose edge endpoints
all occur among the nodes, with an acyclic edge relation,
`_topological_sort` returns a permutation of the nodes (every node exactly
once) in which, for every edge `(a, b)`, `a` appears strictly before `b`.
The FIFO queue seeded in first-seen insertion order is the definition of
`topologicalSort` itself (the seed is `nodes.filter (in-degree = 0)` in map
insertion order, and the loop pops from the front). -/
theorem c6_topologicalSort_correct (nodes : List String) (edges : List (String × String))
    (hnd : nodes.Nodup) (hend : ∀ e ∈ edges, e.1 ∈ nodes ∧ e.2 ∈ nodes)
    (hacyc : AcyclicOn nodes edges) :
    (topologicalSort nodes edges).Perm nodes ∧
    ∀ e ∈ edges, idxOf (topologicalSort nodes edges) e.1
      < idxOf (topologicalSort nodes edges) e.2 := by
  have hinit : KInv nodes edges (nodes.length + edges.length)
      (nodes.filter (fun n => initDeg edges n = 0)) (initDeg edges) [] := by
    refine ⟨?_, ?_, ?_, ?_, ?_, ?_, ?_, ?_⟩
    · simpa using hnd.filter _
    · intro x hx
      simp only [List.nil_append] at hx
      exact (List.mem_filter.mp hx).1
    · intro n
      exact initDeg_eq_dCount edges n
    · intro x hx
      have := (List.mem_filter.mp hx).2
      simpa using this
    · intro n hn
      cases hn
    · intro n hn hn1 hn2
      have hne : ¬(initDeg edges n = 0) := by
        intro h0
        exact hn2 (List.mem_filter.mpr ⟨hn, by simpa using h0⟩)
      have hnn : (0 : Int) ≤ initDeg edges n := by
        rw [initDeg_eq_dCount]
        positivity
      omega
    · intro e he h2
      cases h2
    · have : nodes.filter (fun n => decide (n ∉ ([] : List String))) = nodes := by
        apply List.filter_eq_self.mpr
        intro a ha
        simp
      rw [this]
      exact Nat.le_add_right _ _
  have hmain := kahnLoop_correct nodes edges hend hnd hacyc
    (nodes.length + edges.length)
    (nodes.filter (fun n => initDeg edges n = 0)) (initDeg edges) [] hinit
  have hts : topologicalSort nodes edges
      = kahnLoop edges (nodes.length + edges.length)
          (nodes.filter (fun n => initDeg edges n = 0)) (initDeg edges) [] := rfl
  rw [hts]
  refine ⟨hmain.1, ?_⟩
  intro e he
  have he2 : e.2 ∈ kahnLoop edges (nodes.length + edges.length)
      (nodes.filter (fun n => initDeg edges n = 0)) (initDeg edges) [] :=
    (hmain.1.mem_iff).mpr (hend e he).2
  exact (hmain.2 e he he2).2

/-- Witness for C6 on the Scenario A task graph. -/
theorem c6_topologicalSort_witness :
    (["analyze_requirements", "fix_implementation", "validate_changes"] :
      List String).Nodup ∧
    (∀ e ∈ ([("analyze_requirements", "fix_implementation"),
        ("fix_implementation", "validate_changes")] : List (String × String)),
      e.1 ∈ ["analyze_requirements", "fix_implementation", "validate_changes"] ∧
      e.2 ∈ ["analyze_requirements", "fix_implementation", "validate_changes"]) ∧
    AcyclicOn ["analyze_requirements", "fix_implementation", "validate_changes"]
      [("analyze_requirements", "fix_implementation"),
       ("fix_implementation", "validate_changes")] ∧
    ((topologicalSort ["analyze_requirements", "fix_implementation", "validate_changes"]
        [("analyze_requirements", "fix_implementation"),
         ("fix_implementation", "validate_changes")]).Perm
      ["analyze_requirements", "fix_implementation", "validate_changes"] ∧
    ∀ e ∈ ([("analyze_requirements", "fix_implementation"),
        ("fix_implementation", "validate_changes")] : List (String × String)),
      idxOf (topologicalSort ["analyze_requirements", "fix_implementation",
          "validate_changes"]
        [("analyze_requirements", "fix_implementation"),
         ("fix_implementation", "validate_changes")]) e.1
      < idxOf (topologicalSort ["analyze_requirements", "fix_implementation",
          "validate_changes"]
        [("analyze_requirements", "fix_implementation"),
         ("fix_implementation", "validate_changes")]) e.2) :=
  ⟨by decide, by decide, by decide,
    c6_topologicalSort_correct
      ["analyze_requirements", "fix_implementation", "validate_changes"]
      [("analyze_requirements", "fix_implementation"),
       ("fix_implementation", "validate_changes")]
      (by decide) (by decide) (by decide)⟩

/-! ## C8: preview addition/deletion counts -/

/-- Claim C8 (counterexample): the diff
`--- termnet/c.py / +++ termnet/c.py / @@ -1 +1 @@ / +x` parses, but the
literal number of `+`-prefixed lines is 2 (the `+++` file header counts)
while `total_additions` is 1, and the literal number of `-`-prefixed lines
is 1 (the `---` header) while `total_deletions` is 0. -/
theorem c8_literal_count_counterexample :
    (getPatchPreview defaultEngineCfg []
        "--- termnet/c.py\n+++ termnet/c.py\n@@ -1 +1 @@\n+x").total_additions
      ≠ literalPlusLines "--- termnet/c.py\n+++ termnet/c.py\n@@ -1 +1 @@\n+x" ∧
    (getPatchPreview defaultEngineCfg []
        "--- termnet/c.py\n+++ termnet/c.py\n@@ -1 +1 @@\n+x").total_deletions
      ≠ literalMinusLines "--- termnet/c.py\n+++ termnet/c.py\n@@ -1 +1 @@\n+x" := by
  decide

theorem chPre_append (p r : List Char) : chPre p (p ++ r) = true := by
  induction p with
  | nil => simp [chPre]
  | cons a as ih => simp [chPre, ih]

/-- Splitting skips over a newline-free chunk, accumulating it. -/
theorem splitNlCh_chunk (s : List Char) (cs acc : List Char) (h : '\n' ∉ s) :
    splitNlCh (s ++ cs) acc = splitNlCh cs (acc ++ s) := by
  induction s generalizing acc with
  | nil => simp
  | cons c s' ih =>
    have hc : c ≠ '\n' := fun hh => h (hh ▸ List.mem_cons_self _ _)
    have h' : '\n' ∉ s' := fun hh => h (List.mem_cons_of_mem _ hh)
    simp only [List.cons_append, splitNlCh, if_neg hc]
    rw [show acc ++ c :: s' = (acc ++ [c]) ++ s' by simp]
    exact ih (acc ++ [c]) h'

/-- Python `split("\n")` inverts `"\n".join` on newline-free lines. -/
theorem pySplitNl_nlJoin (l : List String) (hne : l ≠ [])
    (hnl : ∀ x ∈ l, '\n' ∉ x.data) : pySplitNl (nlJoin l) = l := by
  induction l with
  | nil => exact absurd rfl hne
  | cons x xs ih =>
    cases xs with
    | nil =>
      show splitNlCh (nlJoin [x]).data [] = [x]
      have : (nlJoin [x]).data = x.data ++ [] := by simp [nlJoin]
      rw [this, splitNlCh_chunk x.data [] [] (hnl x (by simp))]
      simp [splitNlCh]
    | cons y ys =>
      show splitNlCh (nlJoin (x :: y :: ys)).data [] = x :: y :: ys
      have hdata : (nlJoin (x :: y :: ys)).data
          = x.data ++ ('\n' :: (nlJoin (y :: ys)).data) := by
        show (x ++ "\n" ++ nlJoin (y :: ys)).data = _
        rw [String.data_append, String.data_append,
          show ("\n" : String).data = ['\n'] from rfl, List.append_assoc]
        rfl
      rw [hdata, splitNlCh_chunk x.data _ [] (hnl x (by simp))]
      simp only [List.nil_append, splitNlCh, if_pos rfl]
      have := ih (by simp) (fun z hz => hnl z (List.mem_cons_of_mem _ hz))
      rw [show (⟨x.data⟩ : String) = x from by cases x; rfl]
      rw [show splitNlCh (nlJoin (y :: ys)).data [] = pySplitNl (nlJoin (y :: ys)) from rfl,
        this]
      simp

theorem stepLine_dashes (st : PState) (p : String) :
    stepLine st ("--- " ++ p) = .ok st := by
  have h : strHasPre "--- " ("--- " ++ p) = true := by
    unfold strHasPre
    rw [String.data_append]
    exact chPre_append _ _
  unfold stepLine
  rw [if_pos h]

theorem stepLine_plusheader (st : PState) (p : String)
    (hstrip : pyStrip p = p) (hdev : p ≠ "/dev/null") :
    stepLine st ("+++ " ++ p)
      = .ok { st with currentFile := some p, patches := assocSet st.patches p [] } := by
  have hdata : ("+++ " ++ p).data = '+' :: '+' :: '+' :: ' ' :: p.data := by
    rw [String.data_append]
    rfl
  have h1 : strHasPre "--- " ("+++ " ++ p) = false := by
    unfold strHasPre
    rw [hdata]
    rfl
  have h2 : strHasPre "+++ " ("+++ " ++ p) = true := by
    unfold strHasPre
    rw [String.data_append]
    exact chPre_append _ _
  have hdrop : ("+++ " ++ p).data.drop 4 = p.data := by
    rw [hdata]
    rfl
  have hmk : (⟨p.data⟩ : String) = p := by cases p; rfl
  unfold stepLine
  rw [if_neg (by simp [h1]), if_pos h2, hdrop, hmk]
  have hps : pyStrip p = p := hstrip
  rw [hps, if_neg hdev]

theorem stepLine_hunkhdr (ps : Patches) (p : String) (hf : Option String) :
    stepLine ⟨ps, some p, hf⟩ "@@ -1,2 +1,3 @@"
      = .ok ⟨assocAppendHunk ps p ⟨1, 2, 1, 3, []⟩, some p, some p⟩ := by
  unfold stepLine
  rw [if_neg (by decide), if_neg (by decide), if_pos (by decide)]
  rfl

theorem stepLine_body (ps : Patches) (p f : String) (l : String) (hl : GoodBodyLine l) :
    stepLine ⟨ps, some p, some f⟩ l = .ok ⟨assocAppendLine ps f l, some p, some f⟩ := by
  obtain ⟨hne, hpre, h1, h2, h3, _⟩ := hl
  have hbeq : (l == "") = false := by
    rw [beq_eq_false_iff_ne]
    exact hne
  have hcond : (Option.isSome (some f) &&
      (strHasPre " " l || strHasPre "-" l || strHasPre "+" l || l == "")) = true := by
    simp only [Option.isSome_some, Bool.true_and]
    rcases hpre with h | h | h <;> simp [h]
  unfold stepLine
  rw [if_neg (by simp [h1]), if_neg (by simp [h2]), if_neg (by simp [h3]), if_pos hcond]
  simp [hbeq]

theorem parseLines_body (f p : String) (acc body : List String)
    (hb : ∀ l ∈ body, GoodBodyLine l) :
    parseLines body ⟨[(f, [⟨1, 2, 1, 3, acc⟩])], some p, some f⟩
      = .ok [(f, [⟨1, 2, 1, 3, acc ++ body⟩])] := by
  induction body generalizing acc with
  | nil => simp [parseLines]
  | cons l ls ih =>
    have hstep := stepLine_body [(f, [(⟨1, 2, 1, 3, acc⟩ : Hunk)])] p f l (hb l (by simp))
    have happ : assocAppendLine [(f, [(⟨1, 2, 1, 3, acc⟩ : Hunk)])] f l
        = [(f, [⟨1, 2, 1, 3, acc ++ [l]⟩])] := by
      simp [assocAppendLine, updateLastHunk]
    simp only [parseLines, hstep, happ]
    rw [ih (acc ++ [l]) (fun x hx => hb x (List.mem_cons_of_mem _ hx))]
    simp

/-- Parsing a rendered single-file single-hunk diff yields exactly that
file and hunk. -/
theorem parse_renderDiff (p : String) (body : List String)
    (hp : GoodDiffPath p) (hb : ∀ l ∈ body, GoodBodyLine l) :
    parseUnifiedDiff (renderDiff p body) = .ok [(p, [⟨1, 2, 1, 3, body⟩])] := by
  obtain ⟨hnl, hstrip, hdev⟩ := hp
  have hlines : pySplitNl (renderDiff p body)
      = ("--- " ++ p) :: ("+++ " ++ p) :: "@@ -1,2 +1,3 @@" :: body := by
    unfold renderDiff
    rw [show (["--- " ++ p, "+++ " ++ p, "@@ -1,2 +1,3 @@"] ++ body)
        = ("--- " ++ p) :: ("+++ " ++ p) :: "@@ -1,2 +1,3 @@" :: body from rfl]
    apply pySplitNl_nlJoin
    · simp
    · intro x hx
      rcases List.mem_cons.mp hx with rfl | hx
      · rw [String.data_append]
        simp only [List.mem_append]
        rintro (hmem | hmem)
        · revert hmem
          decide
        · exact hnl hmem
      · rcases List.mem_cons.mp hx with rfl | hx
        · rw [String.data_append]
          simp only [List.mem_append]
          rintro (hmem | hmem)
          · revert hmem
            decide
          · exact hnl hmem
        · rcases List.mem_cons.mp hx with rfl | hx
          · decide
          · exact (hb x hx).2.2.2.2.2
  unfold parseUnifiedDiff
  rw [hlines]
  simp only [parseLines, stepLine_dashes, stepLine_plusheader _ _ hstrip hdev,
    stepLine_hunkhdr]
  have hseed : assocAppendHunk (assocSet [] p []) p ⟨1, 2, 1, 3, []⟩
      = [(p, [⟨1, 2, 1, 3, []⟩])] := by
    simp [assocSet, assocAppendHunk]
  rw [hseed]
  have := parseLines_body p p [] body hb
  simpa using this

/-- A line starting with `-` does not start with `+`, so the engine's
deletion predicate coincides with the plain `-`-prefix test. -/
theorem minusPred (l : String) :
    (!strHasPre "+" l && strHasPre "-" l) = strHasPre "-" l := by
  unfold strHasPre
  cases hd : l.data with
  | nil => rfl
  | cons c cs =>
    by_cases hc : c = '-'
    · subst hc
      simp [chPre]
    · have hc2 : ('-' : Char) ≠ c := fun h => hc h.symm
      simp [chPre, hc2]

/-- Claim C8 (amended): for a single-file single-hunk unified diff in
standard shape, `total_additions` equals the literal number of `+`-prefixed
lines of the diff minus the one `+++` file header, and equals the number of
`+`-prefixed hunk body lines; symmetrically `total_deletions` equals the
literal `-` count minus the one `---` header.  (`get_patch_preview` performs
no writes by construction: it returns no file system.) -/
theorem c8_preview_counts_amended (cfg : EngineCfg) (fs : FS) (p : String)
    (body : List String) (hp : GoodDiffPath p) (hb : ∀ l ∈ body, GoodBodyLine l) :
    (getPatchPreview cfg fs (renderDiff p body)).total_additions + 1
        = literalPlusLines (renderDiff p body) ∧
    (getPatchPreview cfg fs (renderDiff p body)).total_deletions + 1
        = literalMinusLines (renderDiff p body) ∧
    (getPatchPreview cfg fs (renderDiff p body)).total_additions
        = body.countP (fun l => strHasPre "+" l) := by
  have hparse := parse_renderDiff p body hp hb
  have hlines : pySplitNl (renderDiff p body)
      = ("--- " ++ p) :: ("+++ " ++ p) :: "@@ -1,2 +1,3 @@" :: body := by
    have := parse_renderDiff p body hp hb
    obtain ⟨hnl, hstrip, hdev⟩ := hp
    unfold renderDiff
    rw [show (["--- " ++ p, "+++ " ++ p, "@@ -1,2 +1,3 @@"] ++ body)
        = ("--- " ++ p) :: ("+++ " ++ p) :: "@@ -1,2 +1,3 @@" :: body from rfl]
    apply pySplitNl_nlJoin
    · simp
    · intro x hx
      rcases List.mem_cons.mp hx with rfl | hx
      · rw [String.data_append]
        simp only [List.mem_append]
        rintro (hmem | hmem)
        · revert hmem
          decide
        · exact hnl hmem
      · rcases List.mem_cons.mp hx with rfl | hx
        · rw [String.data_append]
          simp only [List.mem_append]
          rintro (hmem | hmem)
          · revert hmem
            decide
          · exact hnl hmem
        · rcases List.mem_cons.mp hx with rfl | hx
          · decide
          · exact (hb x hx).2.2.2.2.2
  have hplus1 : strHasPre "+" ("--- " ++ p) = false := by
    unfold strHasPre
    rw [String.data_append]
    rfl
  have hplus2 : strHasPre "+" ("+++ " ++ p) = true := by
    unfold strHasPre
    rw [String.data_append]
    rfl
  have hminus1 : strHasPre "-" ("--- " ++ p) = true := by
    unfold strHasPre
    rw [String.data_append]
    rfl
  have hminus2 : strHasPre "-" ("+++ " ++ p) = false := by
    unfold strHasPre
    rw [String.data_append]
    rfl
  have hadd : (getPatchPreview cfg fs (renderDiff p body)).total_additions
      = body.countP (fun l => strHasPre "+" l) := by
    simp only [getPatchPreview, hparse]
    simp [totalAdditionsOf]
  have hplus3 : strHasPre "+" "@@ -1,2 +1,3 @@" = false := by decide
  have hminus3 : strHasPre "-" "@@ -1,2 +1,3 @@" = false := by decide
  have hdel : (getPatchPreview cfg fs (renderDiff p body)).total_deletions
      = body.countP (fun l => strHasPre "-" l) := by
    simp only [getPatchPreview, hparse]
    simp only [totalDeletionsOf]
    simp only [List.map_cons, List.map_nil, List.sum_cons, List.sum_nil]
    rw [List.countP_congr (fun l _ => by rw [minusPred l])]
    simp
  refine ⟨?_, ?_, hadd⟩
  · rw [hadd]
    unfold literalPlusLines
    rw [hlines]
    simp [List.countP_cons, hplus1, hplus2, hplus3]
  · rw [hdel]
    unfold literalMinusLines
    rw [hlines]
    simp [List.countP_cons, hminus1, hminus2, hminus3]

/-- Witness for C8 (amended) at a concrete single-hunk diff. -/
theorem c8_preview_counts_witness :
    GoodDiffPath "termnet/x.py" ∧
    (∀ l ∈ ([" ctx", "+add1", "-del", "+add2"] : List String), GoodBodyLine l) ∧
    ((getPatchPreview defaultEngineCfg []
        (renderDiff "termnet/x.py" [" ctx", "+add1", "-del", "+add2"])).total_additions + 1
      = literalPlusLines (renderDiff "termnet/x.py" [" ctx", "+add1", "-del", "+add2"]) ∧
    (getPatchPreview defaultEngineCfg []
        (renderDiff "termnet/x.py" [" ctx", "+add1", "-del", "+add2"])).total_deletions + 1
      = literalMinusLines (renderDiff "termnet/x.py" [" ctx", "+add1", "-del", "+add2"]) ∧
    (getPatchPreview defaultEngineCfg []
        (renderDiff "termnet/x.py" [" ctx", "+add1", "-del", "+add2"])).total_additions
      = ([" ctx", "+add1", "-del", "+add2"] : List String).countP
          (fun l => strHasPre "+" l)) :=
  ⟨by decide, by decide,
    c8_preview_counts_amended defaultEngineCfg [] "termnet/x.py"
      [" ctx", "+add1", "-del", "+add2"] (by decide) (by decide)⟩
